import Mathlib

/-!
# Double pendulum simulator: the physics core of `phys_math.c` and `pendulum.c`

A shallow embedding of the numerical core of the simulator:

* `deg_to_rad`, `polar_to_car`, `deriv`, `runge_kutta_4` from `phys_math.c`;
* the part of `main` in `pendulum.c` that runs before the playback starts: the
  simulation loop that fills the angle arrays and the conversion loop that
  fills the position arrays.

Modelling conventions.

* The code is written once, over a type `α` that carries the arithmetic
  operations and literals of C `double`; the library functions `sin` and `cos`
  of `math.h` are parameters `sin cos : α → α` of every definition that calls
  them.  All definitions are computable.
* The code is read in two arithmetics.  In exact real arithmetic, `α := ℝ`,
  `sin := Real.sin`, `cos := Real.cos`: rounding is idealised away.  In the
  arithmetic of the machine, `α := dbl`, a model of IEEE 754 binary64 with
  signed zeros, infinities, NaN and round-to-nearest-even, with
  `sin := libm_sin Real.sin`, `cos := libm_cos Real.cos`, the correctly
  rounded functions.  A theorem says which one it is about.  Of the library
  functions the binary64 theorems use only `sin(0) = 0`, `cos(0) = 1` and
  `|cos x| ≤ 1` at a finite `x`.
* `pow(x, 2)` is `x ^ 2`; in binary64 that is the rounded product `x * x`.
* A function that writes through a pointer returns the new content of the
  objects it received: `polar_to_car` returns the content of `*coords`,
  `runge_kutta_4` returns the content of `*s` and of `*c` after the call.
* The local arrays of `main` are lists of length `total_steps`; `a[i] = v` is
  `List.set`, and a read `a[i]` is `List.getD a i 0`.
* A `for (int i = 0; i < n; i++)` loop is a left fold of its body over
  `List.range n`.
-/

namespace DoublePendulum

/-! ## Types of `phys_math.h` -/

/-- Indices of the initial conditions array (`enum ics`). -/
inductive ics_t where
  | M1 | M2 | L1 | L2 | T1 | T2
  deriving DecidableEq, Repr

/-- User-given constants (`struct constants`). -/
structure constants_t (α : Type) where
  m_1 : α
  m_2 : α
  l_1 : α
  l_2 : α
  deriving DecidableEq, Repr

/-- Pendulum angles and their first derivatives (`struct state`). -/
@[ext]
structure state_t (α : Type) where
  theta_1 : α
  theta_2 : α
  omega_1 : α
  omega_2 : α
  deriving DecidableEq, Repr

/-- First and second derivatives of the pendulum angles (`struct deriv`). -/
@[ext]
structure deriv_t (α : Type) where
  dtheta_1 : α
  dtheta_2 : α
  d2theta_1 : α
  d2theta_2 : α
  deriving DecidableEq, Repr

/-- Position in cartesian coordinates (`struct cart`). -/
structure cart_t (α : Type) where
  x : α
  y : α
  deriving DecidableEq, Repr

section Code

variable {α : Type} [Zero α] [One α] [NatCast α] [OfScientific α]
  [Add α] [Sub α] [Mul α] [Div α] [Neg α] [Pow α ℕ]

/-! ## Constants (`#define`s) -/

/-- Simulated duration in seconds (`#define MAXTIME 60`). -/
def MAXTIME : Nat := 60

/-- Timestep in seconds (`#define T_STEP 0.01`). -/
def T_STEP : α := 0.01

/-- The constant `#define PI 3.1415927`. -/
def PI : α := 3.1415927

/-- Gravitational acceleration (`#define G 9.8`). -/
def G : α := 9.8

/-- Pixel scale of the computed coordinates (`#define SCALE_CONST 100`). -/
def SCALE_CONST : Nat := 100

/-! ## `phys_math.c` -/

/-- Converts an angle from degrees to radians. -/
def deg_to_rad (theta_deg : α) : α :=
  theta_deg * PI / 180

variable (sin cos : α → α)

/-- Converts from polar to cartesian coordinates; the result is `*coords`. -/
def polar_to_car (theta length : α) : cart_t α :=
  { x := length * sin theta
    y := length * cos theta }

/-- Local `M` of `deriv`. -/
def deriv_M (c : constants_t α) : α :=
  c.m_2 / (c.m_1 + c.m_2)

/-- Local `diff` of `deriv`. -/
def deriv_diff (s : state_t α) : α :=
  s.theta_1 - s.theta_2

/-- Local `f_1` of `deriv`. -/
def deriv_f_1 (s : state_t α) (c : constants_t α) : α :=
  (-(c.l_2 / c.l_1)) * deriv_M c * s.omega_2 ^ 2 * sin (deriv_diff s)
    - (G / c.l_1 * sin s.theta_1)

/-- Local `f_2` of `deriv`. -/
def deriv_f_2 (s : state_t α) (c : constants_t α) : α :=
  (c.l_1 / c.l_2) * s.omega_1 ^ 2 * sin (deriv_diff s)
    - (G / c.l_2 * sin s.theta_2)

/-- Local `alpha_1` of `deriv`. -/
def deriv_alpha_1 (s : state_t α) (c : constants_t α) : α :=
  (c.l_2 / c.l_1) * deriv_M c * cos (deriv_diff s)

/-- Local `alpha_2` of `deriv`. -/
def deriv_alpha_2 (s : state_t α) (c : constants_t α) : α :=
  (c.l_1 / c.l_2) * cos (deriv_diff s)

/-- Local `denom` of `deriv`. -/
def deriv_denom (s : state_t α) (c : constants_t α) : α :=
  1 - (deriv_alpha_1 cos s c * deriv_alpha_2 cos s c)

/-- Takes the state and returns the derivative of each state variable. -/
def deriv (s : state_t α) (c : constants_t α) : deriv_t α :=
  { dtheta_1 := s.omega_1
    dtheta_2 := s.omega_2
    d2theta_1 :=
      (deriv_f_1 sin s c - deriv_alpha_1 cos s c * deriv_f_2 sin s c) / deriv_denom cos s c
    d2theta_2 :=
      ((-deriv_alpha_2 cos s c) * deriv_f_1 sin s c + deriv_f_2 sin s c) / deriv_denom cos s c }

/-- One integration step.  The first component is `*s` after the call, the
second is `*c` after the call.  The parameter `t` is the accumulated time the
caller passes. -/
def runge_kutta_4 (s : state_t α) (c : constants_t α) (_t : α) : state_t α × constants_t α :=
  let k1 := deriv sin cos s c
  let temp : state_t α :=
    { theta_1 := s.theta_1 + 0.5 * T_STEP * k1.dtheta_1
      theta_2 := s.theta_2 + 0.5 * T_STEP * k1.dtheta_2
      omega_1 := s.omega_1 + 0.5 * T_STEP * k1.d2theta_1
      omega_2 := s.omega_2 + 0.5 * T_STEP * k1.d2theta_2 }
  let k2 := deriv sin cos temp c
  let temp : state_t α :=
    { theta_1 := s.theta_1 + 0.5 * T_STEP * k2.dtheta_1
      theta_2 := s.theta_2 + 0.5 * T_STEP * k2.dtheta_2
      omega_1 := s.omega_1 + 0.5 * T_STEP * k2.d2theta_1
      omega_2 := s.omega_2 + 0.5 * T_STEP * k2.d2theta_2 }
  let k3 := deriv sin cos temp c
  let temp : state_t α :=
    { theta_1 := s.theta_1 + 0.5 * T_STEP * k3.dtheta_1
      theta_2 := s.theta_2 + 0.5 * T_STEP * k3.dtheta_2
      omega_1 := s.omega_1 + 0.5 * T_STEP * k3.d2theta_1
      omega_2 := s.omega_2 + 0.5 * T_STEP * k3.d2theta_2 }
  let k4 := deriv sin cos temp c
  ({ theta_1 := s.theta_1
        + T_STEP / 6 * (k1.dtheta_1 + 2 * k2.dtheta_1 + 2 * k3.dtheta_1 + k4.dtheta_1)
     theta_2 := s.theta_2
        + T_STEP / 6 * (k1.dtheta_2 + 2 * k2.dtheta_2 + 2 * k3.dtheta_2 + k4.dtheta_2)
     omega_1 := s.omega_1
        + T_STEP / 6 * (k1.d2theta_1 + 2 * k2.d2theta_1 + 2 * k3.d2theta_1 + k4.d2theta_1)
     omega_2 := s.omega_2
        + T_STEP / 6 * (k1.d2theta_2 + 2 * k2.d2theta_2 + 2 * k3.d2theta_2 + k4.d2theta_2) },
   c)

/-! ## The computation of `main` in `pendulum.c` -/

/-- Number of timesteps: `(int)round(MAXTIME/T_STEP)`.  The quotient is taken
in `ℚ`; on the nonnegative rationals `round` rounds halves up, like the C
function. -/
def total_steps : Nat :=
  (round ((MAXTIME : ℚ) / T_STEP)).toNat

/-- The variables of `main` that the simulation loop reads or writes. -/
structure sim_t (α : Type) where
  state : state_t α
  constants : constants_t α
  t : α
  theta_1_arr : List α
  theta_2_arr : List α

/-- The four position arrays of `main`. -/
@[ext]
structure pos_t (α : Type) where
  x_1_arr : List α
  x_2_arr : List α
  y_1_arr : List α
  y_2_arr : List α

/-- Body of the simulation loop ("call RK4") for loop index `i`. -/
def sim_body (m : sim_t α) (i : Nat) : sim_t α :=
  let r := runge_kutta_4 sin cos m.state m.constants m.t
  { state := r.1
    constants := r.2
    theta_1_arr := m.theta_1_arr.set i r.1.theta_1
    theta_2_arr := m.theta_2_arr.set i r.1.theta_2
    t := m.t + T_STEP }

/-- The simulation loop `for (int i = 0; i < n; i++)`. -/
def sim_loop (n : Nat) (m : sim_t α) : sim_t α :=
  (List.range n).foldl (sim_body sin cos) m

/-- Body of the conversion loop for loop index `i`. -/
def convert_body (constants : constants_t α) (theta_1_arr theta_2_arr : List α)
    (p : pos_t α) (i : Nat) : pos_t α :=
  let cart := polar_to_car sin cos (theta_1_arr.getD i 0) (SCALE_CONST * constants.l_1)
  let x_1_arr := p.x_1_arr.set i cart.x
  let y_1_arr := p.y_1_arr.set i cart.y
  let cart := polar_to_car sin cos (theta_2_arr.getD i 0) (SCALE_CONST * constants.l_2)
  let x_2_arr := p.x_2_arr.set i (cart.x + x_1_arr.getD i 0)
  let y_2_arr := p.y_2_arr.set i (cart.y + y_1_arr.getD i 0)
  { x_1_arr := x_1_arr, x_2_arr := x_2_arr, y_1_arr := y_1_arr, y_2_arr := y_2_arr }

/-- The conversion loop `for (int i = 0; i < n; i++)`. -/
def convert_loop (n : Nat) (constants : constants_t α) (theta_1_arr theta_2_arr : List α)
    (p : pos_t α) : pos_t α :=
  (List.range n).foldl (convert_body sin cos constants theta_1_arr theta_2_arr) p

/-- The constants `main` builds from the initial conditions. -/
def main_constants (init_conds : ics_t → α) : constants_t α :=
  { m_1 := init_conds ics_t.M1
    m_2 := init_conds ics_t.M2
    l_1 := init_conds ics_t.L1 / 100
    l_2 := init_conds ics_t.L2 / 100 }

/-- The state `main` builds from the initial conditions. -/
def main_state (init_conds : ics_t → α) : state_t α :=
  { theta_1 := deg_to_rad (init_conds ics_t.T1)
    theta_2 := deg_to_rad (init_conds ics_t.T2)
    omega_1 := 0
    omega_2 := 0 }

/-- The variables of `main` when the simulation loop starts. -/
def main_sim_init (init_conds : ics_t → α) : sim_t α :=
  { state := main_state init_conds
    constants := main_constants init_conds
    theta_1_arr := (List.replicate total_steps 0).set 0 (init_conds ics_t.T1)
    theta_2_arr := (List.replicate total_steps 0).set 0 (init_conds ics_t.T2)
    t := 0 }

/-- The position arrays of `main` after their `memset`. -/
def main_pos_init : pos_t α :=
  { x_1_arr := List.replicate total_steps 0
    x_2_arr := List.replicate total_steps 0
    y_1_arr := List.replicate total_steps 0
    y_2_arr := List.replicate total_steps 0 }

/-- The part of `main` between reading the initial conditions and starting the
playback: the variables after the simulation loop and the position arrays
after the conversion loop. -/
def main (init_conds : ics_t → α) : sim_t α × pos_t α :=
  let m := sim_loop sin cos total_steps (main_sim_init init_conds)
  let p := convert_loop sin cos total_steps m.constants m.theta_1_arr m.theta_2_arr
    main_pos_init
  (m, p)

end Code

/-! ## Auxiliary definitions used to state the properties -/

section Aux

variable {α : Type} [Zero α] [One α] [NatCast α] [OfScientific α]
  [Add α] [Sub α] [Mul α] [Div α] [Neg α] [Pow α ℕ]

/-- The state map of one integrator call with constants `c`: the content of
`*s` after `runge_kutta_4(s, c, t)` (the time argument is taken to be `0`). -/
def rk4_step (sin cos : α → α) (c : constants_t α) (s : state_t α) : state_t α :=
  (runge_kutta_4 sin cos s c 0).1

/-- The state `s + a*k`: `a*k.dtheta_i` is added to `theta_i` and
`a*k.d2theta_i` to `omega_i`. -/
def state_add (s : state_t α) (a : α) (k : deriv_t α) : state_t α :=
  { theta_1 := s.theta_1 + a * k.dtheta_1
    theta_2 := s.theta_2 + a * k.dtheta_2
    omega_1 := s.omega_1 + a * k.d2theta_1
    omega_2 := s.omega_2 + a * k.d2theta_2 }

/-- The classic fourth-order Runge-Kutta update of the 4-vector
`(theta1, theta2, omega1, omega2)` with step `dt`, as the specification
writes it. -/
def rk4_classic (sin cos : α → α) (dt : α) (s : state_t α) (c : constants_t α) : state_t α :=
  let k1 := deriv sin cos s c
  let k2 := deriv sin cos (state_add s (dt / 2) k1) c
  let k3 := deriv sin cos (state_add s (dt / 2) k2) c
  let k4 := deriv sin cos (state_add s dt k3) c
  { theta_1 := s.theta_1
      + dt / 6 * (k1.dtheta_1 + 2 * k2.dtheta_1 + 2 * k3.dtheta_1 + k4.dtheta_1)
    theta_2 := s.theta_2
      + dt / 6 * (k1.dtheta_2 + 2 * k2.dtheta_2 + 2 * k3.dtheta_2 + k4.dtheta_2)
    omega_1 := s.omega_1
      + dt / 6 * (k1.d2theta_1 + 2 * k2.d2theta_1 + 2 * k3.d2theta_1 + k4.d2theta_1)
    omega_2 := s.omega_2
      + dt / 6 * (k1.d2theta_2 + 2 * k2.d2theta_2 + 2 * k3.d2theta_2 + k4.d2theta_2) }

/-- The mirrored state: all four components negated. -/
def state_neg (s : state_t α) : state_t α :=
  { theta_1 := -s.theta_1
    theta_2 := -s.theta_2
    omega_1 := -s.omega_1
    omega_2 := -s.omega_2 }

/-- The negated derivative sample. -/
def deriv_neg (d : deriv_t α) : deriv_t α :=
  { dtheta_1 := -d.dtheta_1
    dtheta_2 := -d.dtheta_2
    d2theta_1 := -d.d2theta_1
    d2theta_2 := -d.d2theta_2 }

/-- Initial conditions as typed at the prompt: masses 10 kg and 1 kg, both
rods 100 cm, both initial angles 45 degrees. -/
def init_conds_45 : ics_t → α
  | ics_t.M1 => 10
  | ics_t.M2 => 1
  | ics_t.L1 => 100
  | ics_t.L2 => 100
  | ics_t.T1 => 45
  | ics_t.T2 => 45

/-- Initial conditions as typed at the prompt: masses 1e-20 kg and 1 kg, both
rods 100 cm, both initial angles 0 degrees. -/
def init_conds_tiny : ics_t → α
  | ics_t.M1 => 1e-20
  | ics_t.M2 => 1
  | ics_t.L1 => 100
  | ics_t.L2 => 100
  | ics_t.T1 => 0
  | ics_t.T2 => 0

/-- Initial conditions with the two angles negated. -/
def init_conds_mirror (init_conds : ics_t → α) : ics_t → α
  | ics_t.T1 => -init_conds ics_t.T1
  | ics_t.T2 => -init_conds ics_t.T2
  | k => init_conds k

end Aux

/-! ## The arithmetic of `double` (IEEE 754 binary64) -/

/-- A value of the C type `double` (IEEE 754 binary64): a finite number with
its sign bit and its magnitude, a nonnegative rational (so that both zeros
exist), an infinity with its sign bit, or a NaN. -/
inductive dbl where
  | fin (sgn : Bool) (mag : ℚ)
  | inf (sgn : Bool)
  | nan
  deriving DecidableEq, Repr

section Rounding

variable {K : Type} [LinearOrderedField K] [FloorRing K]

/-- Rounds to the nearest integer, ties to the even one. -/
def round_even (x : K) : ℤ :=
  if x - ⌊x⌋ < 1 / 2 then ⌊x⌋
  else if 1 / 2 < x - ⌊x⌋ then ⌊x⌋ + 1
  else if ⌊x⌋ % 2 = 0 then ⌊x⌋ else ⌊x⌋ + 1

/-- Exponent of the binade used to round the positive number `x`: the floor
of its binary logarithm, but at least `-1022` (subnormal range). -/
def fl_exp (x : K) : ℤ :=
  max (Int.log 2 x) (-1022)

/-- Magnitude of the binary64 number nearest to the positive number `x`
(53 significant bits, ties to even), `none` when it overflows. -/
def fl_mag (x : K) : Option ℚ :=
  let r : ℚ := (round_even (x / (2 : K) ^ (fl_exp x - 52)) : ℚ) * (2 : ℚ) ^ (fl_exp x - 52)
  if r < (2 : ℚ) ^ (1024 : ℤ) then some r else none

/-- Rounds a nonzero number to binary64; zero is sent to `+0`. -/
def fl (x : K) : dbl :=
  if x = 0 then dbl.fin false 0
  else
    match fl_mag |x| with
    | some r => dbl.fin (decide (x < 0)) r
    | none => dbl.inf (decide (x < 0))

end Rounding

namespace dbl

/-- The rational value of a finite double (`0` for the others). -/
def val : dbl → ℚ
  | fin sgn mag => if sgn then -mag else mag
  | _ => 0

/-- The double is finite. -/
def is_fin : dbl → Bool
  | fin _ _ => true
  | _ => false

/-- The double is `+0` or `-0`. -/
def is_zero : dbl → Bool
  | fin _ mag => decide (mag = 0)
  | _ => false

/-- The double is finite, has sign bit 0, and its magnitude lies between `lo`
and `hi`. -/
def within (lo hi : ℚ) : dbl → Bool
  | fin false mag => decide (lo ≤ mag ∧ mag ≤ hi)
  | _ => false

/-- Unary minus. -/
def neg : dbl → dbl
  | fin sgn mag => fin (!sgn) mag
  | inf sgn => inf (!sgn)
  | nan => nan

/-- Addition, rounded to nearest.  Opposite infinities give NaN; an exact zero
sum of finite numbers is `-0` when both operands carry the sign bit and `+0`
otherwise. -/
def add : dbl → dbl → dbl
  | nan, _ => nan
  | _, nan => nan
  | inf a, inf b => if a = b then inf a else nan
  | inf a, fin _ _ => inf a
  | fin _ _, inf b => inf b
  | fin a x, fin b y =>
    if val (fin a x) + val (fin b y) = 0 then fin (a && b) 0
    else fl (val (fin a x) + val (fin b y))

/-- Multiplication, rounded to nearest.  The sign bit of the result is the
exclusive or of the sign bits; infinity times zero is NaN. -/
def mul : dbl → dbl → dbl
  | nan, _ => nan
  | _, nan => nan
  | inf a, inf b => inf (xor a b)
  | inf a, fin b y => if y = 0 then nan else inf (xor a b)
  | fin a x, inf b => if x = 0 then nan else inf (xor a b)
  | fin a x, fin b y =>
    if x * y = 0 then fin (xor a b) 0
    else
      match fl_mag (x * y) with
      | some r => fin (xor a b) r
      | none => inf (xor a b)

/-- Division, rounded to nearest.  The sign bit of the result is the exclusive
or of the sign bits; `0/0` and infinity over infinity are NaN, a nonzero number
over zero is an infinity, a finite number over an infinity is a zero. -/
def div : dbl → dbl → dbl
  | nan, _ => nan
  | _, nan => nan
  | inf _, inf _ => nan
  | inf a, fin b _ => inf (xor a b)
  | fin a _, inf b => fin (xor a b) 0
  | fin a x, fin b y =>
    if y = 0 then (if x = 0 then nan else inf (xor a b))
    else if x = 0 then fin (xor a b) 0
    else
      match fl_mag (x / y) with
      | some r => fin (xor a b) r
      | none => inf (xor a b)

/-- The function `pow(x, n)` for a natural exponent: `pow(x, 2)` is the
rounded product `x * x`. -/
def npow (x : dbl) : ℕ → dbl
  | 0 => fin false 1
  | 1 => x
  | n + 2 => mul (npow x (n + 1)) x

instance : Zero dbl := ⟨fin false 0⟩
instance : One dbl := ⟨fin false 1⟩
instance : NatCast dbl := ⟨fun n => fl (n : ℚ)⟩
instance : OfScientific dbl := ⟨fun m s e => fl (OfScientific.ofScientific m s e : ℚ)⟩
instance : Add dbl := ⟨add⟩
instance : Neg dbl := ⟨neg⟩
instance : Sub dbl := ⟨fun a b => add a (neg b)⟩
instance : Mul dbl := ⟨mul⟩
instance : Div dbl := ⟨div⟩
instance : Pow dbl ℕ := ⟨npow⟩

end dbl

/-- The function `sin` of `math.h`, given the real sine: a zero is returned
as it is, another finite argument gives the correctly rounded sine, an
infinite or NaN argument gives NaN. -/
def libm_sin {K : Type} [LinearOrderedField K] [FloorRing K] (sin : K → K) : dbl → dbl
  | dbl.fin sgn mag =>
    if mag = 0 then dbl.fin sgn mag else fl (sin (if sgn then -(mag : K) else (mag : K)))
  | _ => dbl.nan

/-- The function `cos` of `math.h`, given the real cosine: the correctly
rounded cosine at a finite argument, NaN at an infinite or NaN argument. -/
def libm_cos {K : Type} [LinearOrderedField K] [FloorRing K] (cos : K → K) : dbl → dbl
  | dbl.fin sgn mag => fl (cos (if sgn then -(mag : K) else (mag : K)))
  | _ => dbl.nan


/-! ## Lemmas on the loops -/

section LoopLemmas

variable {α : Type} [Field α] (sin cos : α → α)

theorem total_steps_eq : total_steps = 6000 := by
  norm_num [total_steps, MAXTIME, T_STEP]
  rfl

theorem runge_kutta_4_fst (s : state_t α) (c : constants_t α) (t : α) :
    (runge_kutta_4 sin cos s c t).1 = rk4_step sin cos c s := rfl

theorem runge_kutta_4_snd (s : state_t α) (c : constants_t α) (t : α) :
    (runge_kutta_4 sin cos s c t).2 = c := rfl

theorem sim_loop_zero (m : sim_t α) : sim_loop sin cos 0 m = m := rfl

theorem sim_loop_succ (n : Nat) (m : sim_t α) :
    sim_loop sin cos (n + 1) m = sim_body sin cos (sim_loop sin cos n m) n := by
  simp [sim_loop, List.range_succ, List.foldl_append]

theorem sim_loop_constants (n : Nat) (m : sim_t α) :
    (sim_loop sin cos n m).constants = m.constants := by
  induction n with
  | zero => rfl
  | succ n ih => rw [sim_loop_succ]; simpa [sim_body, runge_kutta_4_snd] using ih

theorem sim_loop_state (n : Nat) (m : sim_t α) :
    (sim_loop sin cos n m).state = (rk4_step sin cos m.constants)^[n] m.state := by
  induction n with
  | zero => rfl
  | succ n ih =>
    rw [sim_loop_succ, Function.iterate_succ_apply', ← ih]
    simp [sim_body, runge_kutta_4_fst, sim_loop_constants]

theorem sim_loop_t (n : Nat) (m : sim_t α) :
    (sim_loop sin cos n m).t = m.t + n * T_STEP := by
  induction n with
  | zero => simp [sim_loop_zero]
  | succ n ih =>
    rw [sim_loop_succ]
    simp only [sim_body, ih]
    push_cast
    ring

theorem sim_loop_length (n : Nat) (m : sim_t α) :
    (sim_loop sin cos n m).theta_1_arr.length = m.theta_1_arr.length ∧
    (sim_loop sin cos n m).theta_2_arr.length = m.theta_2_arr.length := by
  induction n with
  | zero => exact ⟨rfl, rfl⟩
  | succ n ih => rw [sim_loop_succ]; simpa [sim_body] using ih

/-- Entry `i` of the angle arrays after `n` iterations of the simulation loop:
for `i < n` it is the angle of the state after `i + 1` integrator calls, for
`i ≥ n` it is the entry the array had before the loop. -/
theorem sim_loop_entry (n : Nat) (m : sim_t α) (i : Nat) :
    (sim_loop sin cos n m).theta_1_arr[i]? =
      (if i < n then
        (m.theta_1_arr[i]?).map
          (fun _ => ((rk4_step sin cos m.constants)^[i + 1] m.state).theta_1)
      else m.theta_1_arr[i]?) ∧
    (sim_loop sin cos n m).theta_2_arr[i]? =
      (if i < n then
        (m.theta_2_arr[i]?).map
          (fun _ => ((rk4_step sin cos m.constants)^[i + 1] m.state).theta_2)
      else m.theta_2_arr[i]?) := by
  induction n with
  | zero => simp [sim_loop_zero]
  | succ n ih =>
    rw [sim_loop_succ]
    have hs := sim_loop_state sin cos n m
    have hc := sim_loop_constants sin cos n m
    have hl := sim_loop_length sin cos n m
    simp only [sim_body, runge_kutta_4_fst, hs, hc, ← Function.iterate_succ_apply']
    rcases Nat.lt_trichotomy i n with h | h | h
    · have h1 : n ≠ i := by omega
      have h2 : i < n + 1 := by omega
      simp [List.getElem?_set_ne h1, ih, h, h2]
    · subst h
      constructor
      · by_cases hi : i < m.theta_1_arr.length
        · simp [List.getElem?_set_self, hl, hi]
        · have hi2 : m.theta_1_arr.length ≤ i := by omega
          simp [List.getElem?_set, hl, hi, List.getElem?_eq_none hi2]
      · by_cases hi : i < m.theta_2_arr.length
        · simp [List.getElem?_set_self, hl, hi]
        · have hi2 : m.theta_2_arr.length ≤ i := by omega
          simp [List.getElem?_set, hl, hi, List.getElem?_eq_none hi2]
    · have h1 : n ≠ i := by omega
      have h2 : ¬ i < n + 1 := by omega
      have h3 : ¬ i < n := by omega
      simp [List.getElem?_set_ne h1, ih, h3, h2]

theorem convert_loop_zero (c : constants_t α) (th1 th2 : List α) (p : pos_t α) :
    convert_loop sin cos 0 c th1 th2 p = p := rfl

theorem convert_loop_succ (n : Nat) (c : constants_t α) (th1 th2 : List α) (p : pos_t α) :
    convert_loop sin cos (n + 1) c th1 th2 p =
      convert_body sin cos c th1 th2 (convert_loop sin cos n c th1 th2 p) n := by
  simp [convert_loop, List.range_succ, List.foldl_append]

theorem convert_loop_length (n : Nat) (c : constants_t α) (th1 th2 : List α) (p : pos_t α) :
    (convert_loop sin cos n c th1 th2 p).x_1_arr.length = p.x_1_arr.length ∧
    (convert_loop sin cos n c th1 th2 p).x_2_arr.length = p.x_2_arr.length ∧
    (convert_loop sin cos n c th1 th2 p).y_1_arr.length = p.y_1_arr.length ∧
    (convert_loop sin cos n c th1 th2 p).y_2_arr.length = p.y_2_arr.length := by
  induction n with
  | zero => exact ⟨rfl, rfl, rfl, rfl⟩
  | succ n ih => rw [convert_loop_succ]; simpa [convert_body] using ih

/-- Entry `i` of the position arrays after `n` iterations of the conversion
loop, for an index inside all four arrays: for `i < n` the entry is the one the
loop body computes from the angles at `i`, for `i ≥ n` it is the entry the
array had before the loop. -/
theorem convert_loop_entry (n : Nat) (c : constants_t α) (th1 th2 : List α) (p : pos_t α)
    (i : Nat) (hx1 : i < p.x_1_arr.length) (hx2 : i < p.x_2_arr.length)
    (hy1 : i < p.y_1_arr.length) (hy2 : i < p.y_2_arr.length) :
    (convert_loop sin cos n c th1 th2 p).x_1_arr[i]? =
      some (if i < n then (polar_to_car sin cos (th1.getD i 0) (SCALE_CONST * c.l_1)).x
        else p.x_1_arr.getD i 0) ∧
    (convert_loop sin cos n c th1 th2 p).y_1_arr[i]? =
      some (if i < n then (polar_to_car sin cos (th1.getD i 0) (SCALE_CONST * c.l_1)).y
        else p.y_1_arr.getD i 0) ∧
    (convert_loop sin cos n c th1 th2 p).x_2_arr[i]? =
      some (if i < n then (polar_to_car sin cos (th2.getD i 0) (SCALE_CONST * c.l_2)).x
          + (polar_to_car sin cos (th1.getD i 0) (SCALE_CONST * c.l_1)).x
        else p.x_2_arr.getD i 0) ∧
    (convert_loop sin cos n c th1 th2 p).y_2_arr[i]? =
      some (if i < n then (polar_to_car sin cos (th2.getD i 0) (SCALE_CONST * c.l_2)).y
          + (polar_to_car sin cos (th1.getD i 0) (SCALE_CONST * c.l_1)).y
        else p.y_2_arr.getD i 0) := by
  induction n with
  | zero => simp [convert_loop_zero, List.getElem?_eq_getElem, hx1, hx2, hy1, hy2]
  | succ n ih =>
    rw [convert_loop_succ]
    obtain ⟨l1, l2, l3, l4⟩ := convert_loop_length sin cos n c th1 th2 p
    obtain ⟨e1, e2, e3, e4⟩ := ih
    rcases Nat.lt_trichotomy i n with h | h | h
    · have h1 : n ≠ i := by omega
      have h2 : i < n + 1 := by omega
      simp only [h, if_true] at e1 e2 e3 e4
      simp [convert_body, List.getElem?_set_ne h1, e1, e2, e3, e4, h2]
    · subst h
      simp [convert_body, List.getElem?_set_self, l1, l2, l3, l4, hx1, hx2, hy1, hy2]
    · have h1 : n ≠ i := by omega
      have h2 : ¬ i < n + 1 := by omega
      have h3 : ¬ i < n := by omega
      simp only [h3, if_false] at e1 e2 e3 e4
      simp [convert_body, List.getElem?_set_ne h1, e1, e2, e3, e4, h2]

/-- The angle arrays after a simulation loop that covers them do not depend on
their content before the loop, nor on the accumulated time. -/
theorem sim_loop_arr_ext (n : Nat) (m m' : sim_t α) (hs : m.state = m'.state)
    (hc : m.constants = m'.constants)
    (h1 : m.theta_1_arr.length = m'.theta_1_arr.length) (h1n : m.theta_1_arr.length ≤ n)
    (h2 : m.theta_2_arr.length = m'.theta_2_arr.length) (h2n : m.theta_2_arr.length ≤ n) :
    (sim_loop sin cos n m).theta_1_arr = (sim_loop sin cos n m').theta_1_arr ∧
    (sim_loop sin cos n m).theta_2_arr = (sim_loop sin cos n m').theta_2_arr := by
  constructor
  · apply List.ext_getElem?
    intro i
    rw [(sim_loop_entry sin cos n m i).1, (sim_loop_entry sin cos n m' i).1, hs, hc]
    by_cases hi : i < m.theta_1_arr.length
    · have hi' : i < m'.theta_1_arr.length := by omega
      have hin : i < n := by omega
      simp [hin, List.getElem?_eq_getElem hi, List.getElem?_eq_getElem hi']
    · have e1 : m.theta_1_arr[i]? = none := List.getElem?_eq_none (by omega)
      have e2 : m'.theta_1_arr[i]? = none := List.getElem?_eq_none (by omega)
      simp [e1, e2]
  · apply List.ext_getElem?
    intro i
    rw [(sim_loop_entry sin cos n m i).2, (sim_loop_entry sin cos n m' i).2, hs, hc]
    by_cases hi : i < m.theta_2_arr.length
    · have hi' : i < m'.theta_2_arr.length := by omega
      have hin : i < n := by omega
      simp [hin, List.getElem?_eq_getElem hi, List.getElem?_eq_getElem hi']
    · have e1 : m.theta_2_arr[i]? = none := List.getElem?_eq_none (by omega)
      have e2 : m'.theta_2_arr[i]? = none := List.getElem?_eq_none (by omega)
      simp [e1, e2]

/-- The position arrays after a conversion loop that covers them do not depend
on their content before the loop. -/
theorem convert_loop_ext (n : Nat) (c : constants_t α) (th1 th2 : List α) (p p' : pos_t α)
    (hx1 : p.x_1_arr.length = n) (hx2 : p.x_2_arr.length = n)
    (hy1 : p.y_1_arr.length = n) (hy2 : p.y_2_arr.length = n)
    (hx1' : p'.x_1_arr.length = n) (hx2' : p'.x_2_arr.length = n)
    (hy1' : p'.y_1_arr.length = n) (hy2' : p'.y_2_arr.length = n) :
    convert_loop sin cos n c th1 th2 p = convert_loop sin cos n c th1 th2 p' := by
  obtain ⟨l1, l2, l3, l4⟩ := convert_loop_length sin cos n c th1 th2 p
  obtain ⟨l1', l2', l3', l4'⟩ := convert_loop_length sin cos n c th1 th2 p'
  have key : ∀ i : Nat,
      (convert_loop sin cos n c th1 th2 p).x_1_arr[i]?
        = (convert_loop sin cos n c th1 th2 p').x_1_arr[i]? ∧
      (convert_loop sin cos n c th1 th2 p).x_2_arr[i]?
        = (convert_loop sin cos n c th1 th2 p').x_2_arr[i]? ∧
      (convert_loop sin cos n c th1 th2 p).y_1_arr[i]?
        = (convert_loop sin cos n c th1 th2 p').y_1_arr[i]? ∧
      (convert_loop sin cos n c th1 th2 p).y_2_arr[i]?
        = (convert_loop sin cos n c th1 th2 p').y_2_arr[i]? := by
    intro i
    by_cases hi : i < n
    · obtain ⟨a1, a2, a3, a4⟩ := convert_loop_entry sin cos n c th1 th2 p i
        (hx1.symm ▸ hi) (hx2.symm ▸ hi) (hy1.symm ▸ hi) (hy2.symm ▸ hi)
      obtain ⟨b1, b2, b3, b4⟩ := convert_loop_entry sin cos n c th1 th2 p' i
        (hx1'.symm ▸ hi) (hx2'.symm ▸ hi) (hy1'.symm ▸ hi) (hy2'.symm ▸ hi)
      simp only [hi, if_true] at a1 a2 a3 a4 b1 b2 b3 b4
      exact ⟨a1.trans b1.symm, a3.trans b3.symm, a2.trans b2.symm, a4.trans b4.symm⟩
    · have hn : n ≤ i := Nat.le_of_not_lt hi
      refine ⟨?_, ?_, ?_, ?_⟩
      · rw [List.getElem?_eq_none (le_of_eq_of_le (l1.trans hx1) hn),
          List.getElem?_eq_none (le_of_eq_of_le (l1'.trans hx1') hn)]
      · rw [List.getElem?_eq_none (le_of_eq_of_le (l2.trans hx2) hn),
          List.getElem?_eq_none (le_of_eq_of_le (l2'.trans hx2') hn)]
      · rw [List.getElem?_eq_none (le_of_eq_of_le (l3.trans hy1) hn),
          List.getElem?_eq_none (le_of_eq_of_le (l3'.trans hy1') hn)]
      · rw [List.getElem?_eq_none (le_of_eq_of_le (l4.trans hy2) hn),
          List.getElem?_eq_none (le_of_eq_of_le (l4'.trans hy2') hn)]
  exact pos_t.ext (List.ext_getElem? fun i => (key i).1)
    (List.ext_getElem? fun i => (key i).2.1) (List.ext_getElem? fun i => (key i).2.2.1)
    (List.ext_getElem? fun i => (key i).2.2.2)

end LoopLemmas

/-! ## Lemmas on `main` -/

section MainLemmas

variable {α : Type} [Field α] (sin cos : α → α)

theorem main_sim_init_length (init_conds : ics_t → α) :
    (main_sim_init init_conds).theta_1_arr.length = total_steps ∧
    (main_sim_init init_conds).theta_2_arr.length = total_steps := by
  simp [main_sim_init]

theorem main_theta_length (init_conds : ics_t → α) :
    (main sin cos init_conds).1.theta_1_arr.length = total_steps ∧
    (main sin cos init_conds).1.theta_2_arr.length = total_steps := by
  have h := sim_loop_length sin cos total_steps (main_sim_init init_conds)
  have h0 := main_sim_init_length init_conds
  simp only [main]
  exact ⟨h.1.trans h0.1, h.2.trans h0.2⟩

/-- Entry `i` of the angle arrays `main` hands to the conversion loop is the
angle pair of the state after `i + 1` integrator calls. -/
theorem main_theta_entry (init_conds : ics_t → α) (i : Nat) (hi : i < total_steps) :
    (main sin cos init_conds).1.theta_1_arr[i]? =
      some ((rk4_step sin cos (main_constants init_conds))^[i + 1]
        (main_state init_conds)).theta_1 ∧
    (main sin cos init_conds).1.theta_2_arr[i]? =
      some ((rk4_step sin cos (main_constants init_conds))^[i + 1]
        (main_state init_conds)).theta_2 := by
  have h := sim_loop_entry sin cos total_steps (main_sim_init init_conds) i
  have h0 := main_sim_init_length init_conds
  have h1 : i < (main_sim_init init_conds).theta_1_arr.length := by omega
  have h2 : i < (main_sim_init init_conds).theta_2_arr.length := by omega
  simp only [hi, if_true, List.getElem?_eq_getElem h1, List.getElem?_eq_getElem h2,
    Option.map_some'] at h
  simpa [main] using h

theorem main_state_final (init_conds : ics_t → α) :
    (main sin cos init_conds).1.state =
      (rk4_step sin cos (main_constants init_conds))^[total_steps] (main_state init_conds) ∧
    (main sin cos init_conds).1.constants = main_constants init_conds ∧
    (main sin cos init_conds).1.t = total_steps * T_STEP := by
  refine ⟨?_, ?_, ?_⟩
  · simpa [main] using sim_loop_state sin cos total_steps (main_sim_init init_conds)
  · simpa [main] using sim_loop_constants sin cos total_steps (main_sim_init init_conds)
  · simpa [main, main_sim_init] using sim_loop_t sin cos total_steps (main_sim_init init_conds)

theorem main_pos_length (init_conds : ics_t → α) :
    (main sin cos init_conds).2.x_1_arr.length = total_steps ∧
    (main sin cos init_conds).2.x_2_arr.length = total_steps ∧
    (main sin cos init_conds).2.y_1_arr.length = total_steps ∧
    (main sin cos init_conds).2.y_2_arr.length = total_steps := by
  simp [main, convert_loop_length, main_pos_init]

end MainLemmas

/-! ## Lemmas on `deriv` over the reals -/

section DerivLemmas

theorem deriv_denom_eq (s : state_t ℝ) (c : constants_t ℝ) (hl1 : c.l_1 ≠ 0) (hl2 : c.l_2 ≠ 0) :
    deriv_denom Real.cos s c
      = 1 - (c.m_2 / (c.m_1 + c.m_2)) * Real.cos (s.theta_1 - s.theta_2) ^ 2 := by
  have e : c.l_2 / c.l_1 * (c.l_1 / c.l_2) = 1 := by field_simp
  simp only [deriv_denom, deriv_alpha_1, deriv_alpha_2, deriv_M, deriv_diff]
  linear_combination
    (-(c.m_2 / (c.m_1 + c.m_2) * Real.cos (s.theta_1 - s.theta_2) ^ 2)) * e

theorem deriv_denom_ge (s : state_t ℝ) (c : constants_t ℝ)
    (hm1 : 0 < c.m_1) (hm2 : 0 < c.m_2) (hl1 : 0 < c.l_1) (hl2 : 0 < c.l_2) :
    c.m_1 / (c.m_1 + c.m_2) ≤ deriv_denom Real.cos s c := by
  have hm : 0 < c.m_1 + c.m_2 := by linarith
  rw [deriv_denom_eq s c hl1.ne' hl2.ne']
  have hc : Real.cos (s.theta_1 - s.theta_2) ^ 2 ≤ 1 := Real.cos_sq_le_one _
  have hq : 0 ≤ c.m_2 / (c.m_1 + c.m_2) := (div_pos hm2 hm).le
  have e : c.m_1 / (c.m_1 + c.m_2) = 1 - c.m_2 / (c.m_1 + c.m_2) := by
    field_simp
  rw [e]
  nlinarith

/-- With equal angles the first mass accelerates like a simple pendulum and the
second one not at all. -/
theorem deriv_of_angles_eq (s : state_t ℝ) (c : constants_t ℝ) (h : s.theta_1 = s.theta_2)
    (hm1 : 0 < c.m_1) (hm2 : 0 < c.m_2) (hl1 : 0 < c.l_1) (hl2 : 0 < c.l_2) :
    deriv Real.sin Real.cos s c
      = ⟨s.omega_1, s.omega_2, -(G / c.l_1 * Real.sin s.theta_1), 0⟩ := by
  have hm : c.m_1 + c.m_2 ≠ 0 := by positivity
  have hd : deriv_denom Real.cos s c ≠ 0 :=
    (lt_of_lt_of_le (div_pos hm1 (by linarith)) (deriv_denom_ge s c hm1 hm2 hl1 hl2)).ne'
  have hd2 : deriv_denom Real.cos s c = c.m_1 / (c.m_1 + c.m_2) := by
    rw [deriv_denom_eq s c hl1.ne' hl2.ne', h]
    simp
    field_simp
  have h1 := hl1.ne'
  have h2 := hl2.ne'
  have hm1' := hm1.ne'
  simp only [deriv, hd2]
  simp only [deriv_f_1, deriv_f_2, deriv_alpha_1, deriv_alpha_2, deriv_M,
    deriv_diff, h, sub_self, Real.sin_zero, Real.cos_zero]
  congr 1
  · field_simp
    ring
  · field_simp
    ring

/-- A bound on the acceleration of the first mass for masses 10 and 1 and unit
rods, when the second mass has no angular velocity and the first a small one. -/
theorem deriv_d2theta_1_le (s : state_t ℝ) (h2 : s.omega_2 = 0) (h1 : s.omega_1 ^ 2 ≤ 0.0025) :
    (deriv Real.sin Real.cos s ⟨10, 1, 1, 1⟩).d2theta_1 ≤ 12 := by
  have hD := deriv_denom_ge s ⟨10, 1, 1, 1⟩ (by norm_num) (by norm_num) (by norm_num)
    (by norm_num)
  have hD' : (10 : ℝ) / 11 ≤ deriv_denom Real.cos s ⟨10, 1, 1, 1⟩ := by
    norm_num at hD; linarith
  have hpos : 0 < deriv_denom Real.cos s ⟨10, 1, 1, 1⟩ := by linarith
  simp only [deriv]
  rw [div_le_iff₀ hpos]
  set d := s.theta_1 - s.theta_2 with hd
  have hf1 : deriv_f_1 Real.sin s ⟨10, 1, 1, 1⟩ = -(9.8 * Real.sin s.theta_1) := by
    simp [deriv_f_1, h2, G]
  have hf2 : deriv_f_2 Real.sin s ⟨10, 1, 1, 1⟩
      = s.omega_1 ^ 2 * Real.sin d - 9.8 * Real.sin s.theta_2 := by
    simp [deriv_f_2, deriv_diff, G, hd]
  have ha1 : deriv_alpha_1 Real.cos s ⟨10, 1, 1, 1⟩ = 1 / 11 * Real.cos d := by
    simp [deriv_alpha_1, deriv_M, deriv_diff, hd]
    norm_num
  rw [hf1, hf2, ha1]
  have hX : |s.omega_1 ^ 2 * Real.sin d - 9.8 * Real.sin s.theta_2| ≤ 9.8025 := by
    have b1 := Real.sin_le_one d
    have b2 := Real.neg_one_le_sin d
    have b3 := Real.sin_le_one s.theta_2
    have b4 := Real.neg_one_le_sin s.theta_2
    have b5 : 0 ≤ s.omega_1 ^ 2 := sq_nonneg _
    rw [abs_le]
    constructor <;> nlinarith
  have hC : |Real.cos d| ≤ 1 := Real.abs_cos_le_one d
  have hCX : |Real.cos d * (s.omega_1 ^ 2 * Real.sin d - 9.8 * Real.sin s.theta_2)|
      ≤ 1 * 9.8025 := by
    rw [abs_mul]
    exact mul_le_mul hC hX (abs_nonneg _) (by norm_num)
  have hneg := neg_abs_le (Real.cos d * (s.omega_1 ^ 2 * Real.sin d - 9.8 * Real.sin s.theta_2))
  have b6 := Real.neg_one_le_sin s.theta_1
  nlinarith

/-- The integrator written with `state_add`: the stages `k2`, `k3` and `k4` are
all evaluated half a step away from `s`. -/
theorem rk4_step_stages (s : state_t ℝ) (c : constants_t ℝ) :
    rk4_step Real.sin Real.cos c s =
      (let k1 := deriv Real.sin Real.cos s c
       let k2 := deriv Real.sin Real.cos (state_add s (0.5 * T_STEP) k1) c
       let k3 := deriv Real.sin Real.cos (state_add s (0.5 * T_STEP) k2) c
       let k4 := deriv Real.sin Real.cos (state_add s (0.5 * T_STEP) k3) c
       { theta_1 := s.theta_1
           + T_STEP / 6 * (k1.dtheta_1 + 2 * k2.dtheta_1 + 2 * k3.dtheta_1 + k4.dtheta_1)
         theta_2 := s.theta_2
           + T_STEP / 6 * (k1.dtheta_2 + 2 * k2.dtheta_2 + 2 * k3.dtheta_2 + k4.dtheta_2)
         omega_1 := s.omega_1
           + T_STEP / 6 * (k1.d2theta_1 + 2 * k2.d2theta_1 + 2 * k3.d2theta_1 + k4.d2theta_1)
         omega_2 := s.omega_2
           + T_STEP / 6
             * (k1.d2theta_2 + 2 * k2.d2theta_2 + 2 * k3.d2theta_2 + k4.d2theta_2) }) :=
  rfl

theorem deriv_state_neg (s : state_t ℝ) (c : constants_t ℝ) :
    deriv Real.sin Real.cos (state_neg s) c = deriv_neg (deriv Real.sin Real.cos s c) := by
  have hdiff : deriv_diff (state_neg s) = -deriv_diff s := by
    simp only [deriv_diff, state_neg]; ring
  have ha1 : deriv_alpha_1 Real.cos (state_neg s) c = deriv_alpha_1 Real.cos s c := by
    simp only [deriv_alpha_1, hdiff, Real.cos_neg]
  have ha2 : deriv_alpha_2 Real.cos (state_neg s) c = deriv_alpha_2 Real.cos s c := by
    simp only [deriv_alpha_2, hdiff, Real.cos_neg]
  have hd : deriv_denom Real.cos (state_neg s) c = deriv_denom Real.cos s c := by
    simp only [deriv_denom, ha1, ha2]
  have hf1 : deriv_f_1 Real.sin (state_neg s) c = -deriv_f_1 Real.sin s c := by
    simp only [deriv_f_1, hdiff, Real.sin_neg]
    simp only [state_neg, Real.sin_neg]
    ring
  have hf2 : deriv_f_2 Real.sin (state_neg s) c = -deriv_f_2 Real.sin s c := by
    simp only [deriv_f_2, hdiff, Real.sin_neg]
    simp only [state_neg, Real.sin_neg]
    ring
  simp only [deriv, deriv_neg, ha1, ha2, hd, hf1, hf2]
  apply deriv_t.ext
  · rfl
  · rfl
  · show _ = -(_ / _)
    rw [← neg_div]
    ring
  · show _ = -(_ / _)
    rw [← neg_div]
    ring

theorem state_add_neg (s : state_t ℝ) (a : ℝ) (k : deriv_t ℝ) :
    state_add (state_neg s) a (deriv_neg k) = state_neg (state_add s a k) := by
  apply state_t.ext <;> simp only [state_add, state_neg, deriv_neg] <;> ring

theorem rk4_step_state_neg (s : state_t ℝ) (c : constants_t ℝ) :
    rk4_step Real.sin Real.cos c (state_neg s)
      = state_neg (rk4_step Real.sin Real.cos c s) := by
  rw [rk4_step_stages, rk4_step_stages]
  simp only [deriv_state_neg, state_add_neg]
  apply state_t.ext <;> simp only [state_neg, deriv_neg] <;> ring

theorem rk4_step_iterate_state_neg (n : Nat) (s : state_t ℝ) (c : constants_t ℝ) :
    (rk4_step Real.sin Real.cos c)^[n] (state_neg s)
      = state_neg ((rk4_step Real.sin Real.cos c)^[n] s) := by
  induction n with
  | zero => rfl
  | succ n ih =>
    rw [Function.iterate_succ_apply', Function.iterate_succ_apply', ih, rk4_step_state_neg]

theorem deriv_rest (c : constants_t ℝ) :
    deriv Real.sin Real.cos ⟨0, 0, 0, 0⟩ c = ⟨0, 0, 0, 0⟩ := by
  simp [deriv, deriv_f_1, deriv_f_2, deriv_diff]

theorem rk4_step_rest (c : constants_t ℝ) :
    rk4_step Real.sin Real.cos c ⟨0, 0, 0, 0⟩ = ⟨0, 0, 0, 0⟩ := by
  simp [rk4_step, runge_kutta_4, deriv_rest]

theorem rk4_step_iterate_rest (n : Nat) (c : constants_t ℝ) :
    (rk4_step Real.sin Real.cos c)^[n] ⟨0, 0, 0, 0⟩ = ⟨0, 0, 0, 0⟩ := by
  induction n with
  | zero => rfl
  | succ n ih => rw [Function.iterate_succ_apply', ih, rk4_step_rest]

/-- From rest with both angles equal to `a`, where `sin a > 1/3`, masses 10 and
1 and unit rods, one integrator call decreases `theta_1`. -/
theorem rk4_step_theta_1_lt (a : ℝ) (ha : 1 / 3 < Real.sin a) :
    (rk4_step Real.sin Real.cos ⟨10, 1, 1, 1⟩ ⟨a, a, 0, 0⟩).theta_1 < a := by
  have hk1 : deriv Real.sin Real.cos ⟨a, a, 0, 0⟩ ⟨10, 1, 1, 1⟩
      = ⟨0, 0, -(9.8 * Real.sin a), 0⟩ := by
    rw [deriv_of_angles_eq _ _ rfl (by norm_num) (by norm_num) (by norm_num) (by norm_num)]
    simp [G]
  have hs2 : state_add ⟨a, a, 0, 0⟩ (0.5 * T_STEP) ⟨0, 0, -(9.8 * Real.sin a), 0⟩
      = ⟨a, a, -(0.049 * Real.sin a), 0⟩ := by
    apply state_t.ext <;> simp only [state_add, T_STEP] <;> ring
  have hk2 : deriv Real.sin Real.cos ⟨a, a, -(0.049 * Real.sin a), 0⟩ ⟨10, 1, 1, 1⟩
      = ⟨-(0.049 * Real.sin a), 0, -(9.8 * Real.sin a), 0⟩ := by
    rw [deriv_of_angles_eq _ _ rfl (by norm_num) (by norm_num) (by norm_num) (by norm_num)]
    simp [G]
  have hs3 : state_add ⟨a, a, 0, 0⟩ (0.5 * T_STEP)
        ⟨-(0.049 * Real.sin a), 0, -(9.8 * Real.sin a), 0⟩
      = ⟨a - 0.000245 * Real.sin a, a, -(0.049 * Real.sin a), 0⟩ := by
    apply state_t.ext <;> simp only [state_add, T_STEP] <;> ring
  have hw : (-(0.049 * Real.sin a)) ^ 2 ≤ (0.0025 : ℝ) := by
    have b1 := Real.sin_le_one a
    have b2 := Real.neg_one_le_sin a
    nlinarith
  have hk3 := deriv_d2theta_1_le ⟨a - 0.000245 * Real.sin a, a, -(0.049 * Real.sin a), 0⟩
    rfl hw
  rw [rk4_step_stages]
  simp only [hk1, hs2, hk2, hs3]
  simp only [deriv, state_add, T_STEP] at hk3 ⊢
  nlinarith

end DerivLemmas

/-! ## Lemmas on rounding to binary64 -/

section RoundingLemmas

variable {K : Type} [LinearOrderedField K] [FloorRing K]

theorem round_even_le (x : K) (N : ℤ) (h : x ≤ N) : round_even x ≤ N := by
  have hf : ⌊x⌋ ≤ N := Int.cast_le.mp ((Int.floor_le x).trans h)
  unfold round_even
  split_ifs with h1 h2 h3
  · exact hf
  · have hlt : (⌊x⌋ : K) < N := by linarith
    have : ⌊x⌋ < N := Int.cast_lt.mp hlt
    omega
  · exact hf
  · have hx : x - ⌊x⌋ = 1 / 2 := le_antisymm (not_lt.mp h2) (not_lt.mp h1)
    have hlt : (⌊x⌋ : K) < N := by linarith
    have : ⌊x⌋ < N := Int.cast_lt.mp hlt
    omega

theorem le_round_even (x : K) (N : ℤ) (h : (N : K) ≤ x) : N ≤ round_even x := by
  have hf : N ≤ ⌊x⌋ := Int.le_floor.mpr h
  unfold round_even
  split_ifs <;> omega

theorem round_even_eq (x : K) (n : ℤ) (h1 : (n : K) - 1 / 2 < x) (h2 : x < n + 1 / 2) :
    round_even x = n := by
  unfold round_even
  by_cases hn : (n : K) ≤ x
  · have hf : ⌊x⌋ = n := by
      rw [Int.floor_eq_iff]
      constructor
      · exact hn
      · linarith
    rw [hf, if_pos (by linarith)]
  · have hn' : x < n := not_le.mp hn
    have hf : ⌊x⌋ = n - 1 := by
      rw [Int.floor_eq_iff]
      push_cast
      constructor <;> linarith
    rw [hf]
    push_cast
    rw [if_neg (by linarith), if_pos (by linarith)]
    ring

theorem fl_exp_le (x : K) (k : ℤ) (hx : 0 < x) (hk : x ≤ (2 : K) ^ k) (hk1 : -1022 ≤ k) :
    fl_exp x ≤ k := by
  have h1 : Int.log 2 x ≤ Int.log 2 ((2 : K) ^ k) := Int.log_mono_right hx hk
  have h2 : Int.log 2 ((2 : K) ^ k) = k := by
    have := Int.log_zpow (R := K) (b := 2) (by norm_num) k
    simpa using this
  unfold fl_exp
  rw [h2] at h1
  exact max_le h1 hk1

/-- Rounding a positive number that is at most `2 ^ k` gives a finite
magnitude that is at most `2 ^ k`. -/
theorem fl_mag_of_le (x : K) (k : ℤ) (hx : 0 < x) (hk : x ≤ (2 : K) ^ k) (hk1 : -1022 ≤ k)
    (hk2 : k ≤ 1023) :
    ∃ r : ℚ, fl_mag x = some r ∧ 0 ≤ r ∧ r ≤ (2 : ℚ) ^ k := by
  have he := fl_exp_le x k hx hk hk1
  set e := fl_exp x with he_def
  have hpos : (0 : K) < (2 : K) ^ (e - 52) := by positivity
  have hN : x / (2 : K) ^ (e - 52) ≤ ((2 ^ (k - e + 52).toNat : ℤ) : K) := by
    rw [div_le_iff₀ hpos]
    have h3 : (((2 ^ (k - e + 52).toNat : ℤ)) : K) = (2 : K) ^ (k - e + 52) := by
      have : ((k - e + 52).toNat : ℤ) = k - e + 52 := Int.toNat_of_nonneg (by omega)
      push_cast
      rw [← zpow_natCast, this]
    rw [h3, ← zpow_add₀ (by norm_num : (2 : K) ≠ 0)]
    have : k - e + 52 + (e - 52) = k := by ring
    rw [this]
    exact hk
  have hn1 := round_even_le _ _ hN
  have hn0 : 0 ≤ round_even (x / (2 : K) ^ (e - 52)) :=
    le_round_even _ 0 (by simpa using (div_pos hx hpos).le)
  have hposQ : (0 : ℚ) < (2 : ℚ) ^ (e - 52) := by positivity
  have hr : (round_even (x / (2 : K) ^ (e - 52)) : ℚ) * (2 : ℚ) ^ (e - 52) ≤ (2 : ℚ) ^ k := by
    have h4 : (round_even (x / (2 : K) ^ (e - 52)) : ℚ) ≤ (2 : ℚ) ^ (k - e + 52) := by
      have : ((round_even (x / (2 : K) ^ (e - 52)) : ℤ) : ℚ)
          ≤ ((2 ^ (k - e + 52).toNat : ℤ) : ℚ) := by exact_mod_cast hn1
      have h5 : ((k - e + 52).toNat : ℤ) = k - e + 52 := Int.toNat_of_nonneg (by omega)
      have h3 : (((2 ^ (k - e + 52).toNat : ℤ)) : ℚ) = (2 : ℚ) ^ (k - e + 52) := by
        push_cast
        rw [← zpow_natCast, h5]
      rw [h3] at this
      exact this
    calc (round_even (x / (2 : K) ^ (e - 52)) : ℚ) * (2 : ℚ) ^ (e - 52)
        ≤ (2 : ℚ) ^ (k - e + 52) * (2 : ℚ) ^ (e - 52) :=
          mul_le_mul_of_nonneg_right h4 hposQ.le
      _ = (2 : ℚ) ^ k := by
          rw [← zpow_add₀ (by norm_num : (2 : ℚ) ≠ 0)]
          congr 1
          ring
  refine ⟨(round_even (x / (2 : K) ^ (e - 52)) : ℚ) * (2 : ℚ) ^ (e - 52), ?_, ?_, hr⟩
  · have hlt : (round_even (x / (2 : K) ^ (e - 52)) : ℚ) * (2 : ℚ) ^ (e - 52)
        < (2 : ℚ) ^ (1024 : ℤ) := by
      have : (2 : ℚ) ^ k < (2 : ℚ) ^ (1024 : ℤ) :=
        zpow_lt_zpow_right₀ (by norm_num) (by omega)
      linarith
    simp only [fl_mag, ← he_def]
    rw [if_pos hlt]
  · have : (0 : ℚ) ≤ (round_even (x / (2 : K) ^ (e - 52)) : ℚ) := by exact_mod_cast hn0
    positivity

theorem round_even_sub_le (x : K) : (round_even x : K) - x ≤ 1 / 2 := by
  have h1 := Int.floor_le x
  unfold round_even
  split_ifs with h1 h2 h3
  · linarith
  · push_cast; linarith
  · linarith
  · push_cast
    have hx : x - ⌊x⌋ = 1 / 2 := le_antisymm (not_lt.mp h2) (not_lt.mp h1)
    linarith

theorem sub_round_even_le (x : K) : x - (round_even x : K) ≤ 1 / 2 := by
  have h1 := Int.lt_floor_add_one x
  unfold round_even
  split_ifs with h1 h2 h3
  · linarith
  · push_cast; linarith
  · have hx : x - ⌊x⌋ = 1 / 2 := le_antisymm (not_lt.mp h2) (not_lt.mp h1)
    linarith
  · push_cast; linarith

theorem fl_exp_eq_log (x : K) (k : ℤ) (hk : (2 : K) ^ k ≤ x) (hk1 : -1022 ≤ k) :
    fl_exp x = Int.log 2 x ∧ k ≤ Int.log 2 x ∧ (2 : K) ^ Int.log 2 x ≤ x := by
  have hx : 0 < x := lt_of_lt_of_le (by positivity) hk
  have h1 : k ≤ Int.log 2 x := by
    have := (Int.zpow_le_iff_le_log (R := K) (b := 2) (by norm_num) (x := k) hx).mp
      (by simpa using hk)
    exact this
  have h2 : (2 : K) ^ Int.log 2 x ≤ x := by
    simpa using Int.zpow_log_le_self (R := K) (b := 2) (by norm_num) hx
  refine ⟨?_, h1, h2⟩
  unfold fl_exp
  exact max_eq_left (by omega)

/-- Rounding a number that is at least `2 ^ k`, in the normal range, gives a
magnitude that is at least `2 ^ k`. -/
theorem fl_mag_ge (x : K) (k : ℤ) (hk : (2 : K) ^ k ≤ x) (hk1 : -1022 ≤ k) (r : ℚ)
    (hr : fl_mag x = some r) : (2 : ℚ) ^ k ≤ r := by
  obtain ⟨he, hke, hle⟩ := fl_exp_eq_log x k hk hk1
  simp only [fl_mag] at hr
  split_ifs at hr with hlt
  simp only [Option.some.injEq] at hr
  rw [he] at hr
  set e := Int.log 2 x with he_def
  have hpos : (0 : K) < (2 : K) ^ (e - 52) := by positivity
  have hN : (((2 ^ 52 : ℤ)) : K) ≤ x / (2 : K) ^ (e - 52) := by
    rw [le_div_iff₀ hpos]
    have : (((2 ^ 52 : ℤ)) : K) = (2 : K) ^ (52 : ℤ) := by norm_num
    rw [this, ← zpow_add₀ (by norm_num : (2 : K) ≠ 0)]
    have : (52 : ℤ) + (e - 52) = e := by ring
    rw [this]
    exact hle
  have hn := le_round_even _ _ hN
  have hnQ : ((2 : ℚ) ^ (52 : ℤ)) ≤ (round_even (x / (2 : K) ^ (e - 52)) : ℚ) := by
    have : (((2 ^ 52 : ℤ)) : ℚ) ≤ ((round_even (x / (2 : K) ^ (e - 52)) : ℤ) : ℚ) := by
      exact_mod_cast hn
    have h2 : (((2 ^ 52 : ℤ)) : ℚ) = (2 : ℚ) ^ (52 : ℤ) := by norm_num
    rw [h2] at this
    exact this
  have hposQ : (0 : ℚ) < (2 : ℚ) ^ (e - 52) := by positivity
  calc (2 : ℚ) ^ k ≤ (2 : ℚ) ^ e := zpow_le_zpow_right₀ (by norm_num) hke
    _ = (2 : ℚ) ^ (52 : ℤ) * (2 : ℚ) ^ (e - 52) := by
        rw [← zpow_add₀ (by norm_num : (2 : ℚ) ≠ 0)]
        congr 1
        ring
    _ ≤ (round_even (x / (2 : K) ^ (e - 52)) : ℚ) * (2 : ℚ) ^ (e - 52) :=
        mul_le_mul_of_nonneg_right hnQ hposQ.le
    _ = r := hr

/-- The rounding error on the positive rationals: at most the relative error
`2 ^ -53`, plus `2 ^ -1075` for the subnormal range. -/
theorem fl_mag_error (x : ℚ) (hx : 0 < x) (r : ℚ) (hr : fl_mag x = some r) :
    |r - x| ≤ (2 : ℚ) ^ (-53 : ℤ) * x + (2 : ℚ) ^ (-1075 : ℤ) := by
  simp only [fl_mag] at hr
  split_ifs at hr with hlt
  simp only [Option.some.injEq] at hr
  set e := fl_exp x with he_def
  have hpos : (0 : ℚ) < (2 : ℚ) ^ (e - 52) := by positivity
  have h1 := round_even_sub_le (x / (2 : ℚ) ^ (e - 52))
  have h2 := sub_round_even_le (x / (2 : ℚ) ^ (e - 52))
  have hx' : x = x / (2 : ℚ) ^ (e - 52) * (2 : ℚ) ^ (e - 52) := by
    field_simp
  have habs : |r - x| ≤ 1 / 2 * (2 : ℚ) ^ (e - 52) := by
    rw [abs_le]
    constructor
    · have : x - r ≤ 1 / 2 * (2 : ℚ) ^ (e - 52) := by
        rw [← hr]
        nth_rewrite 1 [hx']
        rw [← sub_mul]
        exact mul_le_mul_of_nonneg_right h2 hpos.le
      linarith
    · rw [← hr]
      nth_rewrite 2 [hx']
      rw [← sub_mul]
      exact mul_le_mul_of_nonneg_right h1 hpos.le
  have hulp : 1 / 2 * (2 : ℚ) ^ (e - 52)
      ≤ (2 : ℚ) ^ (-53 : ℤ) * x + (2 : ℚ) ^ (-1075 : ℤ) := by
    have hsplit : 1 / 2 * (2 : ℚ) ^ (e - 52) = (2 : ℚ) ^ (-53 : ℤ) * (2 : ℚ) ^ e := by
      rw [← zpow_add₀ (by norm_num : (2 : ℚ) ≠ 0)]
      have : (-53 : ℤ) + e = -1 + (e - 52) := by ring
      rw [this, zpow_add₀ (by norm_num : (2 : ℚ) ≠ 0)]
      norm_num
    rw [hsplit]
    rcases le_total (Int.log 2 x) (-1022) with hlog | hlog
    · have he2 : e = -1022 := by
        rw [he_def]; unfold fl_exp; exact max_eq_right hlog
      rw [he2]
      have : (2 : ℚ) ^ (-53 : ℤ) * (2 : ℚ) ^ (-1022 : ℤ) = (2 : ℚ) ^ (-1075 : ℤ) := by
        rw [← zpow_add₀ (by norm_num : (2 : ℚ) ≠ 0)]
        norm_num
      rw [this]
      have : 0 ≤ (2 : ℚ) ^ (-53 : ℤ) * x := by positivity
      linarith
    · have he2 : e = Int.log 2 x := by
        rw [he_def]; unfold fl_exp; exact max_eq_left hlog
      have hle : (2 : ℚ) ^ e ≤ x := by
        rw [he2]
        simpa using Int.zpow_log_le_self (R := ℚ) (b := 2) (by norm_num) hx
      have h53 : (0 : ℚ) < (2 : ℚ) ^ (-53 : ℤ) := by positivity
      have h1075 : (0 : ℚ) < (2 : ℚ) ^ (-1075 : ℤ) := by positivity
      nlinarith
  exact habs.trans hulp

/-- In the normal range the rounding error on the positive rationals is at
most the relative error `2 ^ -53`. -/
theorem fl_mag_rel_error (x : ℚ) (hx : (2 : ℚ) ^ (-1022 : ℤ) ≤ x) (r : ℚ)
    (hr : fl_mag x = some r) : |r - x| ≤ (2 : ℚ) ^ (-53 : ℤ) * x := by
  obtain ⟨he, -, hle⟩ := fl_exp_eq_log x (-1022) hx le_rfl
  simp only [fl_mag] at hr
  split_ifs at hr with hlt
  simp only [Option.some.injEq] at hr
  rw [he] at hr
  set e := Int.log 2 x with he_def
  have hpos : (0 : ℚ) < (2 : ℚ) ^ (e - 52) := by positivity
  have h1 := round_even_sub_le (x / (2 : ℚ) ^ (e - 52))
  have h2 := sub_round_even_le (x / (2 : ℚ) ^ (e - 52))
  have hx' : x = x / (2 : ℚ) ^ (e - 52) * (2 : ℚ) ^ (e - 52) := by
    field_simp
  have hsplit : 1 / 2 * (2 : ℚ) ^ (e - 52) = (2 : ℚ) ^ (-53 : ℤ) * (2 : ℚ) ^ e := by
    rw [← zpow_add₀ (by norm_num : (2 : ℚ) ≠ 0)]
    have : (-53 : ℤ) + e = -1 + (e - 52) := by ring
    rw [this, zpow_add₀ (by norm_num : (2 : ℚ) ≠ 0)]
    norm_num
  have h53 : (0 : ℚ) < (2 : ℚ) ^ (-53 : ℤ) := by positivity
  have hulp : 1 / 2 * (2 : ℚ) ^ (e - 52) ≤ (2 : ℚ) ^ (-53 : ℤ) * x := by
    rw [hsplit]
    exact mul_le_mul_of_nonneg_left hle h53.le
  have habs : |r - x| ≤ 1 / 2 * (2 : ℚ) ^ (e - 52) := by
    rw [abs_le]
    constructor
    · have : x - r ≤ 1 / 2 * (2 : ℚ) ^ (e - 52) := by
        rw [← hr]
        nth_rewrite 1 [hx']
        rw [← sub_mul]
        exact mul_le_mul_of_nonneg_right h2 hpos.le
      linarith
    · rw [← hr]
      nth_rewrite 2 [hx']
      rw [← sub_mul]
      exact mul_le_mul_of_nonneg_right h1 hpos.le
  exact habs.trans hulp

end RoundingLemmas

/-! ## Lemmas on the binary64 operations -/

section OperationLemmas

namespace dbl

/-- The double is finite, has sign bit 0, and its magnitude lies between `lo`
and `hi`. -/
theorem within_iff (x : dbl) (lo hi : ℚ) :
    x.within lo hi = true ↔ ∃ m, x = fin false m ∧ lo ≤ m ∧ m ≤ hi := by
  cases x with
  | fin s m =>
    cases s
    · simp [within]
    · simp [within]
  | inf s => simp [within]
  | nan => simp [within]

@[simp] theorem nan_mul (x : dbl) : nan * x = nan := by
  cases x <;> rfl

@[simp] theorem mul_nan (x : dbl) : x * nan = nan := by
  cases x <;> rfl

@[simp] theorem nan_add (x : dbl) : nan + x = nan := by
  cases x <;> rfl

@[simp] theorem add_nan (x : dbl) : x + nan = nan := by
  cases x <;> rfl

@[simp] theorem nan_sub (x : dbl) : nan - x = nan := by
  cases x <;> rfl

@[simp] theorem sub_nan (x : dbl) : x - nan = nan := by
  cases x <;> rfl

@[simp] theorem nan_div (x : dbl) : nan / x = nan := by
  cases x <;> rfl

@[simp] theorem div_nan (x : dbl) : x / nan = nan := by
  cases x <;> rfl

@[simp] theorem neg_nan : -nan = nan := rfl

theorem zero_def : (0 : dbl) = fin false 0 := rfl

theorem one_def : (1 : dbl) = fin false 1 := rfl

theorem neg_fin (s : Bool) (m : ℚ) : -(fin s m) = fin (!s) m := rfl

theorem mul_fin (a b : Bool) (x y r : ℚ) (h : x * y ≠ 0) (hr : fl_mag (x * y) = some r) :
    fin a x * fin b y = fin (xor a b) r := by
  show dbl.mul (fin a x) (fin b y) = _
  simp only [dbl.mul, h, if_false, hr]

theorem mul_fin_zero (a b : Bool) (x y : ℚ) (h : x * y = 0) :
    fin a x * fin b y = fin (xor a b) 0 := by
  show dbl.mul (fin a x) (fin b y) = _
  simp only [dbl.mul, h, if_true]

theorem div_fin (a b : Bool) (x y r : ℚ) (hx : x ≠ 0) (hy : y ≠ 0)
    (hr : fl_mag (x / y) = some r) :
    fin a x / fin b y = fin (xor a b) r := by
  show dbl.div (fin a x) (fin b y) = _
  simp only [dbl.div, hx, hy, if_false, hr]

theorem zero_div_fin (a b : Bool) (y : ℚ) (hy : y ≠ 0) :
    fin a 0 / fin b y = fin (xor a b) 0 := by
  show dbl.div (fin a 0) (fin b y) = _
  simp only [dbl.div, hy, if_false, if_true]

theorem zero_div_zero (a b : Bool) : fin a 0 / fin b 0 = nan := by
  show dbl.div (fin a 0) (fin b 0) = _
  simp only [dbl.div, if_true]

theorem add_fin_pos (x y r : ℚ) (h : 0 < x + y) (hr : fl_mag (x + y) = some r) :
    fin false x + fin false y = fin false r := by
  show dbl.add (fin false x) (fin false y) = _
  have h1 : ¬ (x + y < 0) := not_lt.mpr h.le
  simp only [dbl.add, dbl.val, Bool.false_eq_true, if_false, h.ne', fl, abs_of_pos h, hr, h1,
    decide_False]

theorem one_sub_fin_pos (p r : ℚ) (h : 0 < 1 - p) (hr : fl_mag (1 - p) = some r) :
    (1 : dbl) - fin false p = fin false r := by
  show dbl.add (fin false 1) (dbl.neg (fin false p)) = _
  have h1 : ¬ (1 + -p < 0) := by linarith
  have h2 : (1 : ℚ) + -p ≠ 0 := by linarith
  have h3 : |(1 : ℚ) + -p| = 1 - p := by rw [abs_of_pos (by linarith)]; ring
  simp only [dbl.add, dbl.neg, dbl.val, Bool.false_eq_true, if_false, Bool.not_false, if_true,
    h2, fl, h3, hr, h1, decide_False]

theorem one_sub_one : (1 : dbl) - fin false 1 = fin false 0 := by
  show dbl.add (fin false 1) (dbl.neg (fin false 1)) = _
  simp [dbl.add, dbl.neg, dbl.val]

end dbl

end OperationLemmas

/-! ## Bounds on rounded results -/

section Bounds

theorem fl_of_abs_le {K : Type} [LinearOrderedField K] [FloorRing K] (x : K) (k : ℤ)
    (h : |x| ≤ (2 : K) ^ k) (hk1 : -1022 ≤ k) (hk2 : k ≤ 1023) :
    ∃ s r, fl x = dbl.fin s r ∧ 0 ≤ r ∧ r ≤ (2 : ℚ) ^ k := by
  by_cases hx : x = 0
  · exact ⟨false, 0, by simp [fl, hx], le_rfl, by positivity⟩
  · obtain ⟨r, h1, h2, h3⟩ := fl_mag_of_le |x| k (abs_pos.mpr hx) h hk1 hk2
    exact ⟨decide (x < 0), r, by simp [fl, hx, h1], h2, h3⟩

theorem fl_mag_pos_bounds (x : ℚ) (k : ℤ) (hx : 0 < x) (hk : x ≤ (2 : ℚ) ^ k)
    (hk1 : -1022 ≤ k) (hk2 : k ≤ 1023) :
    ∃ r, fl_mag x = some r ∧ 0 ≤ r ∧ r ≤ (2 : ℚ) ^ k ∧
      r ≤ x * (1 + (2 : ℚ) ^ (-53 : ℤ)) + (2 : ℚ) ^ (-1075 : ℤ) := by
  obtain ⟨r, h1, h2, h3⟩ := fl_mag_of_le x k hx hk hk1 hk2
  have h4 := (abs_le.mp (fl_mag_error x hx r h1)).2
  exact ⟨r, h1, h2, h3, by linarith⟩

theorem fl_mag_normal_bounds (x : ℚ) (j k : ℤ) (hj : (2 : ℚ) ^ j ≤ x) (hk : x ≤ (2 : ℚ) ^ k)
    (hj1 : -1022 ≤ j) (hk2 : k ≤ 1023) :
    ∃ r, fl_mag x = some r ∧ (2 : ℚ) ^ j ≤ r ∧ r ≤ (2 : ℚ) ^ k ∧
      x * (1 - (2 : ℚ) ^ (-53 : ℤ)) ≤ r ∧ r ≤ x * (1 + (2 : ℚ) ^ (-53 : ℤ)) := by
  have hx : 0 < x := lt_of_lt_of_le (by positivity) hj
  have hjk : j ≤ k := by
    by_contra hcon
    have : (2 : ℚ) ^ k < (2 : ℚ) ^ j := zpow_lt_zpow_right₀ (by norm_num) (by omega)
    linarith
  obtain ⟨r, h1, -, h3⟩ := fl_mag_of_le x k hx hk (by omega) hk2
  have h2 := fl_mag_ge x j hj hj1 r h1
  have hn : (2 : ℚ) ^ (-1022 : ℤ) ≤ x :=
    le_trans (zpow_le_zpow_right₀ (by norm_num) hj1) hj
  have h4 := abs_le.mp (fl_mag_rel_error x hn r h1)
  exact ⟨r, h1, h2, h3, by linarith [h4.1], by linarith [h4.2]⟩

namespace dbl

theorem mul_fin_bounds (a b : Bool) (x y : ℚ) (k : ℤ) (hx : 0 ≤ x) (hy : 0 ≤ y)
    (hxy : x * y ≤ (2 : ℚ) ^ k) (hk1 : -1022 ≤ k) (hk2 : k ≤ 1023) :
    ∃ r, fin a x * fin b y = fin (xor a b) r ∧ 0 ≤ r ∧ r ≤ (2 : ℚ) ^ k ∧
      r ≤ x * y * (1 + (2 : ℚ) ^ (-53 : ℤ)) + (2 : ℚ) ^ (-1075 : ℤ) := by
  by_cases h0 : x * y = 0
  · refine ⟨0, mul_fin_zero a b x y h0, le_rfl, by positivity, ?_⟩
    rw [h0]
    positivity
  · have hpos : 0 < x * y := lt_of_le_of_ne (mul_nonneg hx hy) (Ne.symm h0)
    obtain ⟨r, h1, h2, h3, h4⟩ := fl_mag_pos_bounds (x * y) k hpos hxy hk1 hk2
    exact ⟨r, mul_fin a b x y r h0 h1, h2, h3, h4⟩

theorem mul_fin_normal (a b : Bool) (x y : ℚ) (j k : ℤ) (hj : (2 : ℚ) ^ j ≤ x * y)
    (hk : x * y ≤ (2 : ℚ) ^ k) (hj1 : -1022 ≤ j) (hk2 : k ≤ 1023) :
    ∃ r, fin a x * fin b y = fin (xor a b) r ∧ (2 : ℚ) ^ j ≤ r ∧ r ≤ (2 : ℚ) ^ k ∧
      x * y * (1 - (2 : ℚ) ^ (-53 : ℤ)) ≤ r ∧ r ≤ x * y * (1 + (2 : ℚ) ^ (-53 : ℤ)) := by
  have hpos : 0 < x * y := lt_of_lt_of_le (by positivity) hj
  obtain ⟨r, h1, h2, h3, h4, h5⟩ := fl_mag_normal_bounds (x * y) j k hj hk hj1 hk2
  exact ⟨r, mul_fin a b x y r hpos.ne' h1, h2, h3, h4, h5⟩

theorem div_fin_normal (a b : Bool) (x y : ℚ) (j k : ℤ) (hy : 0 < y)
    (hj : (2 : ℚ) ^ j ≤ x / y) (hk : x / y ≤ (2 : ℚ) ^ k) (hj1 : -1022 ≤ j) (hk2 : k ≤ 1023) :
    ∃ r, fin a x / fin b y = fin (xor a b) r ∧ (2 : ℚ) ^ j ≤ r ∧ r ≤ (2 : ℚ) ^ k ∧
      x / y * (1 - (2 : ℚ) ^ (-53 : ℤ)) ≤ r ∧ r ≤ x / y * (1 + (2 : ℚ) ^ (-53 : ℤ)) := by
  have hpos : 0 < x / y := lt_of_lt_of_le (by positivity) hj
  have hx : x ≠ 0 := by
    intro h
    rw [h, zero_div] at hpos
    exact lt_irrefl _ hpos
  obtain ⟨r, h1, h2, h3, h4, h5⟩ := fl_mag_normal_bounds (x / y) j k hj hk hj1 hk2
  exact ⟨r, div_fin a b x y r hx hy.ne' h1, h2, h3, h4, h5⟩

theorem add_fin_normal (x y : ℚ) (j k : ℤ)
    (hj : (2 : ℚ) ^ j ≤ x + y) (hk : x + y ≤ (2 : ℚ) ^ k) (hj1 : -1022 ≤ j) (hk2 : k ≤ 1023) :
    ∃ r, fin false x + fin false y = fin false r ∧ (2 : ℚ) ^ j ≤ r ∧ r ≤ (2 : ℚ) ^ k ∧
      (x + y) * (1 - (2 : ℚ) ^ (-53 : ℤ)) ≤ r ∧ r ≤ (x + y) * (1 + (2 : ℚ) ^ (-53 : ℤ)) := by
  have hpos : 0 < x + y := lt_of_lt_of_le (by positivity) hj
  obtain ⟨r, h1, h2, h3, h4, h5⟩ := fl_mag_normal_bounds (x + y) j k hj hk hj1 hk2
  exact ⟨r, add_fin_pos x y r hpos h1, h2, h3, h4, h5⟩

theorem one_sub_fin_normal (p : ℚ) (j : ℤ) (hj : (2 : ℚ) ^ j ≤ 1 - p) (hp : 0 ≤ p)
    (hj1 : -1022 ≤ j) :
    ∃ r, (1 : dbl) - fin false p = fin false r ∧ (2 : ℚ) ^ j ≤ r ∧ r ≤ 1 := by
  have hpos : 0 < 1 - p := lt_of_lt_of_le (by positivity) hj
  obtain ⟨r, h1, h2, h3, -, -⟩ := fl_mag_normal_bounds (1 - p) j 0 hj (by simp; linarith) hj1
    (by norm_num)
  exact ⟨r, one_sub_fin_pos p r hpos h1, h2, by simpa using h3⟩

end dbl

end Bounds

/-! ## Zeros and finiteness in binary64 -/

section ZeroLemmas

namespace dbl

theorem mul_def (x y : dbl) : x * y = dbl.mul x y := rfl

theorem add_def (x y : dbl) : x + y = dbl.add x y := rfl

theorem sub_def (x y : dbl) : x - y = dbl.add x (dbl.neg y) := rfl

theorem div_def (x y : dbl) : x / y = dbl.div x y := rfl

theorem neg_def (x : dbl) : -x = dbl.neg x := rfl

theorem pow_two_def (x : dbl) : x ^ 2 = x * x := rfl

theorem is_zero_iff (x : dbl) : x.is_zero = true ↔ ∃ s, x = fin s 0 := by
  cases x <;> simp [is_zero]

theorem is_fin_iff (x : dbl) : x.is_fin = true ↔ ∃ s m, x = fin s m := by
  cases x <;> simp [is_fin]

theorem is_fin_of_is_zero (x : dbl) (h : x.is_zero = true) : x.is_fin = true := by
  cases x <;> simp_all [is_zero, is_fin]

theorem is_fin_of_within (x : dbl) (lo hi : ℚ) (h : x.within lo hi = true) :
    x.is_fin = true := by
  obtain ⟨m, rfl, -, -⟩ := (within_iff x lo hi).mp h
  rfl

theorem is_zero_of_within (x : dbl) (lo hi : ℚ) (h : x.within lo hi = true) (hlo : 0 < lo) :
    x.is_zero = false := by
  obtain ⟨m, rfl, h1, -⟩ := (within_iff x lo hi).mp h
  have : m ≠ 0 := by linarith
  simp [is_zero, this]

theorem is_fin_mul (x y : dbl) (h : (x * y).is_fin = true) :
    x.is_fin = true ∧ y.is_fin = true := by
  rw [mul_def] at h
  cases x <;> cases y <;> simp_all [dbl.mul, is_fin]
  all_goals split_ifs at h

theorem is_fin_one_sub (x : dbl) (h : ((1 : dbl) - x).is_fin = true) : x.is_fin = true := by
  rw [sub_def, one_def] at h
  cases x <;> simp_all [dbl.add, dbl.neg, is_fin]

theorem neg_mul_eq (x y : dbl) : (-x) * y = -(x * y) := by
  rw [mul_def, mul_def, neg_def, neg_def]
  cases x with
  | nan => cases y <;> rfl
  | inf a =>
    cases y with
    | nan => rfl
    | inf b => cases a <;> cases b <;> rfl
    | fin b q =>
      by_cases hq : q = 0
      · simp [dbl.mul, dbl.neg, hq]
      · cases a <;> cases b <;> simp [dbl.mul, dbl.neg, hq]
  | fin a p =>
    cases y with
    | nan => rfl
    | inf b =>
      by_cases hp : p = 0
      · simp [dbl.mul, dbl.neg, hp]
      · cases a <;> cases b <;> simp [dbl.mul, dbl.neg, hp]
    | fin b q =>
      by_cases h0 : p * q = 0
      · cases a <;> cases b <;> simp [dbl.mul, dbl.neg, h0]
      · cases hr : fl_mag (p * q) with
        | none => cases a <;> cases b <;> simp [dbl.mul, dbl.neg, h0, hr]
        | some r => cases a <;> cases b <;> simp [dbl.mul, dbl.neg, h0, hr]

theorem is_fin_neg (x : dbl) : (-x).is_fin = x.is_fin := by
  cases x <;> rfl

theorem is_zero_neg (x : dbl) : (-x).is_zero = x.is_zero := by
  cases x <;> rfl

theorem mul_is_zero_right (x y : dbl) (hx : x.is_fin = true) (hy : y.is_zero = true) :
    (x * y).is_zero = true := by
  obtain ⟨a, p, rfl⟩ := (is_fin_iff x).mp hx
  obtain ⟨b, rfl⟩ := (is_zero_iff y).mp hy
  rw [mul_fin_zero a b p 0 (by simp)]
  simp [is_zero]

theorem mul_is_zero_left (x y : dbl) (hx : x.is_zero = true) (hy : y.is_fin = true) :
    (x * y).is_zero = true := by
  obtain ⟨a, rfl⟩ := (is_zero_iff x).mp hx
  obtain ⟨b, q, rfl⟩ := (is_fin_iff y).mp hy
  rw [mul_fin_zero a b 0 q (by simp)]
  simp [is_zero]

theorem add_is_zero (x y : dbl) (hx : x.is_zero = true) (hy : y.is_zero = true) :
    (x + y).is_zero = true := by
  obtain ⟨a, rfl⟩ := (is_zero_iff x).mp hx
  obtain ⟨b, rfl⟩ := (is_zero_iff y).mp hy
  rw [add_def]
  simp [dbl.add, dbl.val, is_zero]

theorem sub_is_zero (x y : dbl) (hx : x.is_zero = true) (hy : y.is_zero = true) :
    (x - y).is_zero = true := by
  obtain ⟨a, rfl⟩ := (is_zero_iff x).mp hx
  obtain ⟨b, rfl⟩ := (is_zero_iff y).mp hy
  rw [sub_def]
  simp [dbl.add, dbl.neg, dbl.val, is_zero]

theorem div_is_zero (x y : dbl) (hx : x.is_zero = true) (hy : y.is_fin = true)
    (hy0 : y.is_zero = false) : (x / y).is_zero = true := by
  obtain ⟨a, rfl⟩ := (is_zero_iff x).mp hx
  obtain ⟨b, q, rfl⟩ := (is_fin_iff y).mp hy
  have hq : q ≠ 0 := by simpa [is_zero] using hy0
  rw [zero_div_fin a b q hq]
  simp [is_zero]

theorem div_zero_zero (x y : dbl) (hx : x.is_zero = true) (hy : y.is_zero = true) :
    x / y = nan := by
  obtain ⟨a, rfl⟩ := (is_zero_iff x).mp hx
  obtain ⟨b, rfl⟩ := (is_zero_iff y).mp hy
  exact zero_div_zero a b

theorem zero_add_of_is_zero (x : dbl) (hx : x.is_zero = true) : (0 : dbl) + x = 0 := by
  obtain ⟨a, rfl⟩ := (is_zero_iff x).mp hx
  rw [add_def, zero_def]
  simp [dbl.add, dbl.val]

theorem zero_sub_zero : (0 : dbl) - 0 = 0 := by
  rw [sub_def, zero_def]
  simp [dbl.add, dbl.neg, dbl.val]

end dbl

end ZeroLemmas

/-! ## `deriv` in binary64 arithmetic -/

section Binary64Deriv

/-- Pure arithmetic behind the denominator bound: the accumulated rounding
errors of the six operations leave a margin below `1`. -/
theorem denom_margin (ρ σ r1 r2 M cC t a1 a2 p : ℚ)
    (hρ : ρ * σ = 1) (hρ0 : 0 < ρ) (hρ1 : ρ ≤ 10) (hσ0 : 0 < σ) (hσ1 : σ ≤ 10)
    (hr1 : r1 ≤ ρ * (1 + (2 : ℚ) ^ (-53 : ℤ)))
    (hr2 : r2 ≤ σ * (1 + (2 : ℚ) ^ (-53 : ℤ)))
    (hM0 : 0 ≤ M) (hM : M ≤ 1 - (2 : ℚ) ^ (-49 : ℤ))
    (hC0 : 0 ≤ cC) (hC : cC ≤ 1)
    (ht : t ≤ r1 * M * (1 + (2 : ℚ) ^ (-53 : ℤ)) + (2 : ℚ) ^ (-1075 : ℤ))
    (ha1 : a1 ≤ t * cC * (1 + (2 : ℚ) ^ (-53 : ℤ)) + (2 : ℚ) ^ (-1075 : ℤ))
    (ha20 : 0 ≤ a2) (ha2 : a2 ≤ r2 * cC * (1 + (2 : ℚ) ^ (-53 : ℤ)) + (2 : ℚ) ^ (-1075 : ℤ))
    (hp : p ≤ a1 * a2 * (1 + (2 : ℚ) ^ (-53 : ℤ)) + (2 : ℚ) ^ (-1075 : ℤ)) :
    p ≤ 1 - (2 : ℚ) ^ (-50 : ℤ) := by
  set U : ℚ := 1 + (2 : ℚ) ^ (-53 : ℤ) with hU
  set η : ℚ := (2 : ℚ) ^ (-1075 : ℤ) with hη
  have hU1 : 1 ≤ U := by
    have : (0 : ℚ) < (2 : ℚ) ^ (-53 : ℤ) := by positivity
    rw [hU]
    linarith
  have hU0 : 0 < U := by linarith
  have hU2 : U ^ 2 ≤ 2 := by rw [hU]; norm_num
  have hU3 : U ^ 3 ≤ 2 := by rw [hU]; norm_num
  have hη0 : 0 < η := by rw [hη]; positivity
  have hη1 : η ≤ 1 := by rw [hη]; exact zpow_le_one_of_nonpos₀ (by norm_num) (by norm_num)
  have e1 : t ≤ ρ * M * U ^ 2 + η := by
    calc t ≤ r1 * M * U + η := ht
      _ ≤ (ρ * U) * M * U + η := by gcongr
      _ = ρ * M * U ^ 2 + η := by ring
  have e2 : a1 ≤ ρ * M * U ^ 3 + 3 * η := by
    calc a1 ≤ t * cC * U + η := ha1
      _ ≤ (ρ * M * U ^ 2 + η) * 1 * U + η := by gcongr
      _ = ρ * M * U ^ 3 + η * U + η := by ring
      _ ≤ ρ * M * U ^ 3 + 3 * η := by nlinarith
  have e3 : a2 ≤ σ * U ^ 2 + η := by
    calc a2 ≤ r2 * cC * U + η := ha2
      _ ≤ (σ * U) * 1 * U + η := by gcongr
      _ = σ * U ^ 2 + η := by ring
  have e4 : a1 * a2 ≤ M * U ^ 5 + 100 * η := by
    calc a1 * a2 ≤ (ρ * M * U ^ 3 + 3 * η) * (σ * U ^ 2 + η) := by gcongr
      _ = (ρ * σ) * M * U ^ 5 + η * (ρ * M * U ^ 3 + 3 * σ * U ^ 2 + 3 * η) := by ring
      _ ≤ 1 * M * U ^ 5 + η * (10 * 1 * 2 + 3 * 10 * 2 + 3 * 1) := by
          rw [hρ]
          have hM1 : M ≤ 1 := by
            have : (0:ℚ) < (2 : ℚ) ^ (-49 : ℤ) := by positivity
            linarith
          gcongr
      _ ≤ M * U ^ 5 + 100 * η := by nlinarith
  have e5 : p ≤ M * U ^ 6 + 201 * η := by
    calc p ≤ a1 * a2 * U + η := hp
      _ ≤ (M * U ^ 5 + 100 * η) * U + η := by gcongr
      _ = M * U ^ 6 + 100 * η * U + η := by ring
      _ ≤ M * U ^ 6 + 201 * η := by nlinarith
  have e6 : M * U ^ 6 ≤ (1 - (2 : ℚ) ^ (-49 : ℤ)) * U ^ 6 := by gcongr
  have e7 : (1 - (2 : ℚ) ^ (-49 : ℤ)) * U ^ 6 + 201 * η ≤ 1 - (2 : ℚ) ^ (-50 : ℤ) := by
    rw [hU, hη]
    norm_num
  linarith

theorem libm_cos_bounds (x : dbl) (hx : x.is_fin = true) :
    ∃ s r, libm_cos Real.cos x = dbl.fin s r ∧ 0 ≤ r ∧ r ≤ 1 := by
  cases x with
  | fin sg m =>
    obtain ⟨s, r, h1, h2, h3⟩ := fl_of_abs_le (Real.cos (if sg then -(m : ℝ) else (m : ℝ))) 0
      (by simpa using Real.abs_cos_le_one _) (by norm_num) (by norm_num)
    exact ⟨s, r, h1, h2, by simpa using h3⟩
  | inf s => simp [dbl.is_fin] at hx
  | nan => simp [dbl.is_fin] at hx

/-- The mass fraction `M` computed by `deriv` when the first mass is not
negligible against the second: the sum of the masses is positive and `M` is at
most `1 - 2 ^ -49`. -/
theorem deriv_M_bounds (c : constants_t dbl) (m1 m2 : ℚ)
    (h1 : c.m_1 = dbl.fin false m1) (h2 : c.m_2 = dbl.fin false m2)
    (hm1 : 1 / 10 ^ 99 ≤ m1) (hm1' : m1 ≤ 10) (hm2 : 1 / 10 ^ 99 ≤ m2) (hm2' : m2 ≤ 10)
    (hr : (2 : ℚ) ^ (-48 : ℤ) * m2 ≤ m1) :
    ∃ S M, c.m_1 + c.m_2 = dbl.fin false S ∧ 0 < S ∧
      deriv_M c = dbl.fin false M ∧ 0 ≤ M ∧ M ≤ 1 - (2 : ℚ) ^ (-49 : ℤ) := by
  have hlow : (2 : ℚ) ^ (-330 : ℤ) ≤ 1 / 10 ^ 99 := by norm_num
  have hm1pos : 0 < m1 := lt_of_lt_of_le (by positivity) hm1
  have hm2pos : 0 < m2 := lt_of_lt_of_le (by positivity) hm2
  have hm1low : (2 : ℚ) ^ (-330 : ℤ) ≤ m1 := hlow.trans hm1
  have hm2low : (2 : ℚ) ^ (-330 : ℤ) ≤ m2 := hlow.trans hm2
  obtain ⟨S, hS, hS1, hS2, hS3, hS4⟩ := dbl.add_fin_normal m1 m2 (-330) 5
    (hm1low.trans (le_add_of_nonneg_right hm2pos.le)) (by norm_num; linarith) (by norm_num)
    (by norm_num)
  have hSpos : 0 < S := lt_of_lt_of_le (by positivity) hS1
  have hS5 : m2 * ((1 + (2 : ℚ) ^ (-48 : ℤ)) * (1 - (2 : ℚ) ^ (-53 : ℤ))) ≤ S := by
    have hu : (0 : ℚ) ≤ 1 - (2 : ℚ) ^ (-53 : ℤ) := by norm_num
    calc m2 * ((1 + (2 : ℚ) ^ (-48 : ℤ)) * (1 - (2 : ℚ) ^ (-53 : ℤ)))
        = (m2 + (2 : ℚ) ^ (-48 : ℤ) * m2) * (1 - (2 : ℚ) ^ (-53 : ℤ)) := by ring
      _ ≤ (m2 + m1) * (1 - (2 : ℚ) ^ (-53 : ℤ)) := by gcongr
      _ = (m1 + m2) * (1 - (2 : ℚ) ^ (-53 : ℤ)) := by ring
      _ ≤ S := hS3
  have hK : (0 : ℚ) < (1 + (2 : ℚ) ^ (-48 : ℤ)) * (1 - (2 : ℚ) ^ (-53 : ℤ)) := by norm_num
  have hq1 : m2 / S ≤ 1 / ((1 + (2 : ℚ) ^ (-48 : ℤ)) * (1 - (2 : ℚ) ^ (-53 : ℤ))) := by
    rw [div_le_div_iff₀ hSpos hK]
    linarith
  have hq2 : m2 / S ≤ (2 : ℚ) ^ (0 : ℤ) := by
    have : 1 / ((1 + (2 : ℚ) ^ (-48 : ℤ)) * (1 - (2 : ℚ) ^ (-53 : ℤ))) ≤ 1 := by norm_num
    simpa using hq1.trans this
  have hq3 : (2 : ℚ) ^ (-335 : ℤ) ≤ m2 / S := by
    rw [le_div_iff₀ hSpos]
    have h5 : (2 : ℚ) ^ (-335 : ℤ) * (2 : ℚ) ^ (5 : ℤ) = (2 : ℚ) ^ (-330 : ℤ) := by
      rw [← zpow_add₀ (by norm_num : (2 : ℚ) ≠ 0)]
      norm_num
    have h335 : (0 : ℚ) < (2 : ℚ) ^ (-335 : ℤ) := by positivity
    calc (2 : ℚ) ^ (-335 : ℤ) * S ≤ (2 : ℚ) ^ (-335 : ℤ) * (2 : ℚ) ^ (5 : ℤ) := by gcongr
      _ = (2 : ℚ) ^ (-330 : ℤ) := h5
      _ ≤ m2 := hm2low
  obtain ⟨M, hM, hM1, -, -, hM4⟩ := dbl.div_fin_normal false false m2 S (-335) 0 hSpos hq3 hq2
    (by norm_num) (by norm_num)
  have hMpos : 0 ≤ M := le_trans (by positivity) hM1
  refine ⟨S, M, ?_, hSpos, ?_, hMpos, ?_⟩
  · rw [h1, h2]; exact hS
  · simp only [deriv_M]
    rw [h1, h2, hS]
    simpa only [Bool.xor_false] using hM
  · have hU : (0 : ℚ) ≤ 1 + (2 : ℚ) ^ (-53 : ℤ) := by norm_num
    calc M ≤ m2 / S * (1 + (2 : ℚ) ^ (-53 : ℤ)) := hM4
      _ ≤ 1 / ((1 + (2 : ℚ) ^ (-48 : ℤ)) * (1 - (2 : ℚ) ^ (-53 : ℤ)))
            * (1 + (2 : ℚ) ^ (-53 : ℤ)) := by gcongr
      _ ≤ 1 - (2 : ℚ) ^ (-49 : ℤ) := by norm_num

/-- The denominator `deriv` computes in binary64, for rods between 0.1 and 1,
a finite angle difference and a mass fraction `M` of at most `1 - 2 ^ -49`:
it is a positive finite number, at least `2 ^ -50`. -/
theorem deriv_denom_of_M (s : state_t dbl) (c : constants_t dbl) (l1 l2 M : ℚ)
    (hl1 : c.l_1 = dbl.fin false l1) (hl2 : c.l_2 = dbl.fin false l2)
    (h1 : 1 / 10 ≤ l1) (h1' : l1 ≤ 1) (h2 : 1 / 10 ≤ l2) (h2' : l2 ≤ 1)
    (hM : deriv_M c = dbl.fin false M) (hM0 : 0 ≤ M) (hM1 : M ≤ 1 - (2 : ℚ) ^ (-49 : ℤ))
    (hd : (deriv_diff s).is_fin = true) :
    ∃ d, deriv_denom (libm_cos Real.cos) s c = dbl.fin false d ∧
      (2 : ℚ) ^ (-50 : ℤ) ≤ d ∧ d ≤ 1 := by
  have hl1pos : 0 < l1 := by linarith
  have hl2pos : 0 < l2 := by linarith
  have hρ1 : l2 / l1 ≤ 10 := by rw [div_le_iff₀ hl1pos]; linarith
  have hρ2 : 1 / 10 ≤ l2 / l1 := by rw [le_div_iff₀ hl1pos]; linarith
  have hσ1 : l1 / l2 ≤ 10 := by rw [div_le_iff₀ hl2pos]; linarith
  have hσ2 : 1 / 10 ≤ l1 / l2 := by rw [le_div_iff₀ hl2pos]; linarith
  have hρσ : l2 / l1 * (l1 / l2) = 1 := by field_simp
  obtain ⟨r1, hr1, hr1a, hr1b, -, hr1d⟩ := dbl.div_fin_normal false false l2 l1 (-4) 4 hl1pos
    (by norm_num; linarith) (by norm_num; linarith) (by norm_num) (by norm_num)
  obtain ⟨r2, hr2, hr2a, hr2b, -, hr2d⟩ := dbl.div_fin_normal false false l1 l2 (-4) 4 hl2pos
    (by norm_num; linarith) (by norm_num; linarith) (by norm_num) (by norm_num)
  have hr10 : 0 ≤ r1 := le_trans (by positivity) hr1a
  have hr20 : 0 ≤ r2 := le_trans (by positivity) hr2a
  have hM1' : M ≤ 1 := by
    have : (0 : ℚ) < (2 : ℚ) ^ (-49 : ℤ) := by positivity
    linarith
  obtain ⟨sC, cC, hC, hC0, hC1⟩ := libm_cos_bounds (deriv_diff s) hd
  obtain ⟨t, ht, ht0, htk, hte⟩ := dbl.mul_fin_bounds false false r1 M 4 hr10 hM0
    (by calc r1 * M ≤ (2 : ℚ) ^ (4 : ℤ) * 1 := by gcongr
          _ = (2 : ℚ) ^ (4 : ℤ) := by ring) (by norm_num) (by norm_num)
  obtain ⟨a1, ha1, ha10, ha1k, ha1e⟩ := dbl.mul_fin_bounds false sC t cC 4 ht0 hC0
    (by calc t * cC ≤ (2 : ℚ) ^ (4 : ℤ) * 1 := by gcongr
          _ = (2 : ℚ) ^ (4 : ℤ) := by ring) (by norm_num) (by norm_num)
  obtain ⟨a2, ha2, ha20, ha2k, ha2e⟩ := dbl.mul_fin_bounds false sC r2 cC 4 hr20 hC0
    (by calc r2 * cC ≤ (2 : ℚ) ^ (4 : ℤ) * 1 := by gcongr
          _ = (2 : ℚ) ^ (4 : ℤ) := by ring) (by norm_num) (by norm_num)
  obtain ⟨p, hp, hp0, hpk, hpe⟩ := dbl.mul_fin_bounds sC sC a1 a2 8 ha10 ha20
    (by calc a1 * a2 ≤ (2 : ℚ) ^ (4 : ℤ) * (2 : ℚ) ^ (4 : ℤ) := by gcongr
          _ = (2 : ℚ) ^ (8 : ℤ) := by norm_num) (by norm_num) (by norm_num)
  have hmargin := denom_margin (l2 / l1) (l1 / l2) r1 r2 M cC t a1 a2 p hρσ (by positivity)
    hρ1 (by positivity) hσ1 hr1d hr2d hM0 hM1 hC0 hC1 hte ha1e ha20 ha2e hpe
  obtain ⟨d, hd1, hd2, hd3⟩ := dbl.one_sub_fin_normal p (-50) (by linarith) hp0 (by norm_num)
  simp only [Bool.xor_false, Bool.false_xor, Bool.xor_self] at hr1 hr2 ht ha1 ha2 hp
  refine ⟨d, ?_, hd2, hd3⟩
  simp only [deriv_denom, deriv_alpha_1, deriv_alpha_2]
  rw [hM, hl1, hl2, hC, hr1, hr2, ht, ha1, ha2, hp]
  exact hd1

end Binary64Deriv

/-! ## The rest state in binary64 arithmetic -/

section Binary64Rest

theorem round_even_intCast {K : Type} [LinearOrderedField K] [FloorRing K] (n : ℤ) :
    round_even (n : K) = n :=
  round_even_eq _ n (by linarith) (by linarith)

theorem fl_one {K : Type} [LinearOrderedField K] [FloorRing K] :
    fl (1 : K) = dbl.fin false 1 := by
  have he : fl_exp (1 : K) = 0 := by simp [fl_exp]
  have hr : round_even ((1 : K) / (2 : K) ^ ((0 : ℤ) - 52)) = 2 ^ 52 := by
    have : (1 : K) / (2 : K) ^ ((0 : ℤ) - 52) = ((2 ^ 52 : ℤ) : K) := by norm_num
    rw [this, round_even_intCast]
  have hm : fl_mag (1 : K) = some 1 := by
    simp only [fl_mag, he, hr]
    norm_num
  simp [fl, hm]

theorem fl_rat_within (x : ℚ) (j k : ℤ) (hj : (2 : ℚ) ^ j ≤ x) (hk : x ≤ (2 : ℚ) ^ k)
    (hj1 : -1022 ≤ j) (hk2 : k ≤ 1023) :
    (fl x).within ((2 : ℚ) ^ j) ((2 : ℚ) ^ k) = true := by
  have hx : 0 < x := lt_of_lt_of_le (by positivity) hj
  obtain ⟨r, h1, h2, h3, -, -⟩ := fl_mag_normal_bounds x j k hj hk hj1 hk2
  have h0 : ¬ x < 0 := not_lt.mpr hx.le
  rw [dbl.within_iff]
  exact ⟨r, by simp [fl, hx.ne', abs_of_pos hx, h1, h0], h2, h3⟩

theorem libm_sin_zero : libm_sin Real.sin (0 : dbl) = 0 := by
  simp [libm_sin, dbl.zero_def]

theorem libm_cos_zero : libm_cos Real.cos (0 : dbl) = 1 := by
  simp [libm_cos, dbl.zero_def, dbl.one_def, fl_one]

theorem half_T_STEP_is_fin : ((0.5 : dbl) * (T_STEP : dbl)).is_fin = true := by
  have h1 : (0.5 : dbl) = fl (0.5 : ℚ) := rfl
  have h2 : (T_STEP : dbl) = fl (0.01 : ℚ) := rfl
  have w1 := fl_rat_within (0.5 : ℚ) (-1) (-1) (by norm_num) (by norm_num) (by norm_num)
    (by norm_num)
  have w2 := fl_rat_within (0.01 : ℚ) (-7) (-6) (by norm_num) (by norm_num) (by norm_num)
    (by norm_num)
  obtain ⟨a, ha, ha1, ha2⟩ := (dbl.within_iff _ _ _).mp w1
  obtain ⟨b, hb, hb1, hb2⟩ := (dbl.within_iff _ _ _).mp w2
  have ha0 : 0 ≤ a := le_trans (by positivity) ha1
  have hb0 : 0 ≤ b := le_trans (by positivity) hb1
  obtain ⟨r, hr, -, -, -⟩ := dbl.mul_fin_bounds false false a b 0 ha0 hb0
    (by calc a * b ≤ (2 : ℚ) ^ (-1 : ℤ) * (2 : ℚ) ^ (-6 : ℤ) := by gcongr
          _ ≤ (2 : ℚ) ^ (0 : ℤ) := by norm_num) (by norm_num) (by norm_num)
  rw [h1, h2, ha, hb, hr]
  rfl

theorem T_STEP_div_six_is_fin : ((T_STEP : dbl) / 6).is_fin = true := by
  have h1 : (6 : dbl) = fl (6 : ℚ) := by
    show fl (((6 : ℕ) : ℚ)) = _
    norm_num
  have h2 : (T_STEP : dbl) = fl (0.01 : ℚ) := rfl
  have w1 := fl_rat_within (6 : ℚ) 2 3 (by norm_num) (by norm_num) (by norm_num)
    (by norm_num)
  have w2 := fl_rat_within (0.01 : ℚ) (-7) (-6) (by norm_num) (by norm_num) (by norm_num)
    (by norm_num)
  obtain ⟨a, ha, ha1, ha2⟩ := (dbl.within_iff _ _ _).mp w1
  obtain ⟨b, hb, hb1, hb2⟩ := (dbl.within_iff _ _ _).mp w2
  have ha0 : 0 < a := lt_of_lt_of_le (by positivity) ha1
  have hb0 : 0 < b := lt_of_lt_of_le (by positivity) hb1
  obtain ⟨r, hr, -, -, -, -⟩ := dbl.div_fin_normal false false b a (-10) 0 ha0
    (by rw [le_div_iff₀ ha0]
        calc (2 : ℚ) ^ (-10 : ℤ) * a ≤ (2 : ℚ) ^ (-10 : ℤ) * (2 : ℚ) ^ (3 : ℤ) := by gcongr
          _ = (2 : ℚ) ^ (-7 : ℤ) := by norm_num
          _ ≤ b := hb1)
    (by rw [div_le_iff₀ ha0]
        calc b ≤ (2 : ℚ) ^ (-6 : ℤ) := hb2
          _ ≤ (2 : ℚ) ^ (0 : ℤ) * (2 : ℚ) ^ (2 : ℤ) := by norm_num
          _ ≤ (2 : ℚ) ^ (0 : ℤ) * a := by gcongr)
    (by norm_num) (by norm_num)
  rw [h1, h2, ha, hb, hr]
  rfl

theorem two_is_fin : (2 : dbl).is_fin = true := by
  have h1 : (2 : dbl) = fl (2 : ℚ) := by
    show fl (((2 : ℕ) : ℚ)) = _
    norm_num
  rw [h1]
  exact dbl.is_fin_of_within _ _ _
    (fl_rat_within (2 : ℚ) 1 1 (by norm_num) (by norm_num) (by norm_num) (by norm_num))

/-- The quotient `G / l` is finite for a rod length between 0.1 and 1. -/
theorem G_div_is_fin (l : dbl) (hl : l.within (1 / 10) 1 = true) :
    ((G : dbl) / l).is_fin = true := by
  have h1 : (G : dbl) = fl (9.8 : ℚ) := rfl
  have w1 := fl_rat_within (9.8 : ℚ) 3 4 (by norm_num) (by norm_num) (by norm_num)
    (by norm_num)
  obtain ⟨g, hg, hg1, hg2⟩ := (dbl.within_iff _ _ _).mp w1
  obtain ⟨q, hq, hq1, hq2⟩ := (dbl.within_iff _ _ _).mp hl
  have hq0 : 0 < q := by linarith
  obtain ⟨r, hr, -, -, -, -⟩ := dbl.div_fin_normal false false g q 3 8 hq0
    (by rw [le_div_iff₀ hq0]
        calc (2 : ℚ) ^ (3 : ℤ) * q ≤ (2 : ℚ) ^ (3 : ℤ) * 1 := by gcongr
          _ = (2 : ℚ) ^ (3 : ℤ) := by ring
          _ ≤ g := hg1)
    (by rw [div_le_iff₀ hq0]
        calc g ≤ (2 : ℚ) ^ (4 : ℤ) := hg2
          _ ≤ (2 : ℚ) ^ (8 : ℤ) * (1 / 10) := by norm_num
          _ ≤ (2 : ℚ) ^ (8 : ℤ) * q := by gcongr)
    (by norm_num) (by norm_num)
  rw [h1, hg, hq, hr]
  rfl

/-- In binary64, at the rest state, for rod lengths between 0.1 and 1 and a
finite computed denominator, the two numerators `deriv` divides are zeros. -/
theorem deriv_rest_numerators (c : constants_t dbl)
    (hl1 : c.l_1.within (1 / 10) 1 = true) (hl2 : c.l_2.within (1 / 10) 1 = true)
    (hd1 : (deriv_denom (libm_cos Real.cos) ⟨0, 0, 0, 0⟩ c).is_fin = true) :
    (deriv_f_1 (libm_sin Real.sin) ⟨0, 0, 0, 0⟩ c
      - deriv_alpha_1 (libm_cos Real.cos) ⟨0, 0, 0, 0⟩ c
        * deriv_f_2 (libm_sin Real.sin) ⟨0, 0, 0, 0⟩ c).is_zero = true ∧
    ((-deriv_alpha_2 (libm_cos Real.cos) ⟨0, 0, 0, 0⟩ c)
        * deriv_f_1 (libm_sin Real.sin) ⟨0, 0, 0, 0⟩ c
      + deriv_f_2 (libm_sin Real.sin) ⟨0, 0, 0, 0⟩ c).is_zero = true := by
  have hz : (0 : dbl).is_zero = true := rfl
  have hzf : (0 : dbl).is_fin = true := rfl
  have hdiff : deriv_diff (⟨0, 0, 0, 0⟩ : state_t dbl) = 0 := dbl.zero_sub_zero
  have hP : (deriv_alpha_1 (libm_cos Real.cos) ⟨0, 0, 0, 0⟩ c
      * deriv_alpha_2 (libm_cos Real.cos) ⟨0, 0, 0, 0⟩ c).is_fin = true :=
    dbl.is_fin_one_sub _ hd1
  obtain ⟨ha1, ha2⟩ := dbl.is_fin_mul _ _ hP
  have hrM : (c.l_2 / c.l_1 * deriv_M c).is_fin = true := (dbl.is_fin_mul _ _ ha1).1
  have hr2 : (c.l_1 / c.l_2).is_fin = true := (dbl.is_fin_mul _ _ ha2).1
  have hA : ((-(c.l_2 / c.l_1)) * deriv_M c).is_fin = true := by
    rw [dbl.neg_mul_eq, dbl.is_fin_neg]
    exact hrM
  have hsq : ((0 : dbl) ^ 2).is_zero = true := by
    rw [dbl.pow_two_def]
    exact dbl.mul_is_zero_left _ _ hz hzf
  have hf1 : (deriv_f_1 (libm_sin Real.sin) ⟨0, 0, 0, 0⟩ c).is_zero = true := by
    simp only [deriv_f_1, hdiff, libm_sin_zero]
    apply dbl.sub_is_zero
    · exact dbl.mul_is_zero_left _ _ (dbl.mul_is_zero_right _ _ hA hsq) hzf
    · exact dbl.mul_is_zero_right _ _ (G_div_is_fin _ hl1) hz
  have hf2 : (deriv_f_2 (libm_sin Real.sin) ⟨0, 0, 0, 0⟩ c).is_zero = true := by
    simp only [deriv_f_2, hdiff, libm_sin_zero]
    apply dbl.sub_is_zero
    · exact dbl.mul_is_zero_left _ _ (dbl.mul_is_zero_right _ _ hr2 hsq) hzf
    · exact dbl.mul_is_zero_right _ _ (G_div_is_fin _ hl2) hz
  constructor
  · exact dbl.sub_is_zero _ _ hf1 (dbl.mul_is_zero_right _ _ ha1 hf2)
  · apply dbl.add_is_zero _ _ _ hf2
    apply dbl.mul_is_zero_right _ _ _ hf1
    rw [dbl.is_fin_neg]
    exact ha2

/-- In binary64, at the rest state, for rod lengths between 0.1 and 1 and a
computed denominator that is finite and not zero, `deriv` returns zeros. -/
theorem deriv_rest_binary64 (c : constants_t dbl)
    (hl1 : c.l_1.within (1 / 10) 1 = true) (hl2 : c.l_2.within (1 / 10) 1 = true)
    (hd1 : (deriv_denom (libm_cos Real.cos) ⟨0, 0, 0, 0⟩ c).is_fin = true)
    (hd0 : (deriv_denom (libm_cos Real.cos) ⟨0, 0, 0, 0⟩ c).is_zero = false) :
    (deriv (libm_sin Real.sin) (libm_cos Real.cos) ⟨0, 0, 0, 0⟩ c).dtheta_1 = 0 ∧
    (deriv (libm_sin Real.sin) (libm_cos Real.cos) ⟨0, 0, 0, 0⟩ c).dtheta_2 = 0 ∧
    (deriv (libm_sin Real.sin) (libm_cos Real.cos) ⟨0, 0, 0, 0⟩ c).d2theta_1.is_zero = true ∧
    (deriv (libm_sin Real.sin) (libm_cos Real.cos) ⟨0, 0, 0, 0⟩ c).d2theta_2.is_zero
      = true := by
  obtain ⟨n1, n2⟩ := deriv_rest_numerators c hl1 hl2 hd1
  exact ⟨rfl, rfl, dbl.div_is_zero _ _ n1 hd1 hd0, dbl.div_is_zero _ _ n2 hd1 hd0⟩

/-- In binary64, at the rest state, for rod lengths between 0.1 and 1 and a
computed denominator that is a zero, `deriv` returns NaN accelerations. -/
theorem deriv_rest_nan (c : constants_t dbl)
    (hl1 : c.l_1.within (1 / 10) 1 = true) (hl2 : c.l_2.within (1 / 10) 1 = true)
    (hd : (deriv_denom (libm_cos Real.cos) ⟨0, 0, 0, 0⟩ c).is_zero = true) :
    deriv (libm_sin Real.sin) (libm_cos Real.cos) ⟨0, 0, 0, 0⟩ c
      = ⟨0, 0, dbl.nan, dbl.nan⟩ := by
  obtain ⟨n1, n2⟩ := deriv_rest_numerators c hl1 hl2 (dbl.is_fin_of_is_zero _ hd)
  have e1 := dbl.div_zero_zero _ _ n1 hd
  have e2 := dbl.div_zero_zero _ _ n2 hd
  rw [deriv, e1, e2]

/-- In binary64, a state whose angular velocities are NaN has a derivative
sample that is NaN in every component. -/
theorem deriv_of_omega_nan (sin cos : dbl → dbl) (th1 th2 : dbl) (c : constants_t dbl) :
    deriv sin cos ⟨th1, th2, dbl.nan, dbl.nan⟩ c = ⟨dbl.nan, dbl.nan, dbl.nan, dbl.nan⟩ := by
  simp [deriv, deriv_f_1, deriv_f_2, dbl.pow_two_def]

end Binary64Rest

/-! ## The integrator at the rest state in binary64 arithmetic -/

section Binary64Integrator

/-- The integrator written with `state_add`, in any arithmetic. -/
theorem rk4_step_eq_stages {α : Type} [Zero α] [One α] [NatCast α] [OfScientific α]
    [Add α] [Sub α] [Mul α] [Div α] [Neg α] [Pow α ℕ] (sin cos : α → α)
    (s : state_t α) (c : constants_t α) :
    rk4_step sin cos c s =
      (let k1 := deriv sin cos s c
       let k2 := deriv sin cos (state_add s (0.5 * T_STEP) k1) c
       let k3 := deriv sin cos (state_add s (0.5 * T_STEP) k2) c
       let k4 := deriv sin cos (state_add s (0.5 * T_STEP) k3) c
       { theta_1 := s.theta_1
           + T_STEP / 6 * (k1.dtheta_1 + 2 * k2.dtheta_1 + 2 * k3.dtheta_1 + k4.dtheta_1)
         theta_2 := s.theta_2
           + T_STEP / 6 * (k1.dtheta_2 + 2 * k2.dtheta_2 + 2 * k3.dtheta_2 + k4.dtheta_2)
         omega_1 := s.omega_1
           + T_STEP / 6 * (k1.d2theta_1 + 2 * k2.d2theta_1 + 2 * k3.d2theta_1 + k4.d2theta_1)
         omega_2 := s.omega_2
           + T_STEP / 6
             * (k1.d2theta_2 + 2 * k2.d2theta_2 + 2 * k3.d2theta_2 + k4.d2theta_2) }) :=
  rfl

theorem state_add_rest (h : dbl) (k : deriv_t dbl) (hh : h.is_fin = true)
    (h1 : k.dtheta_1.is_zero = true) (h2 : k.dtheta_2.is_zero = true)
    (h3 : k.d2theta_1.is_zero = true) (h4 : k.d2theta_2.is_zero = true) :
    state_add (⟨0, 0, 0, 0⟩ : state_t dbl) h k = ⟨0, 0, 0, 0⟩ := by
  simp only [state_add]
  rw [dbl.zero_add_of_is_zero _ (dbl.mul_is_zero_right _ _ hh h1),
    dbl.zero_add_of_is_zero _ (dbl.mul_is_zero_right _ _ hh h2),
    dbl.zero_add_of_is_zero _ (dbl.mul_is_zero_right _ _ hh h3),
    dbl.zero_add_of_is_zero _ (dbl.mul_is_zero_right _ _ hh h4)]

theorem weighted_sum_rest (x : dbl) (hx : x.is_zero = true) :
    (0 : dbl) + T_STEP / 6 * (x + 2 * x + 2 * x + x) = 0 := by
  have h2 := dbl.mul_is_zero_right _ _ two_is_fin hx
  have hs : (x + 2 * x + 2 * x + x).is_zero = true :=
    dbl.add_is_zero _ _ (dbl.add_is_zero _ _ (dbl.add_is_zero _ _ hx h2) h2) hx
  exact dbl.zero_add_of_is_zero _ (dbl.mul_is_zero_right _ _ T_STEP_div_six_is_fin hs)

/-- In binary64, for rod lengths between 0.1 and 1 and a denominator at rest
that is finite and not zero, one integrator call leaves the rest state as it
is. -/
theorem rk4_step_rest_binary64 (c : constants_t dbl)
    (hl1 : c.l_1.within (1 / 10) 1 = true) (hl2 : c.l_2.within (1 / 10) 1 = true)
    (hd1 : (deriv_denom (libm_cos Real.cos) ⟨0, 0, 0, 0⟩ c).is_fin = true)
    (hd0 : (deriv_denom (libm_cos Real.cos) ⟨0, 0, 0, 0⟩ c).is_zero = false) :
    rk4_step (libm_sin Real.sin) (libm_cos Real.cos) c ⟨0, 0, 0, 0⟩ = ⟨0, 0, 0, 0⟩ := by
  obtain ⟨k1, k2, k3, k4⟩ := deriv_rest_binary64 c hl1 hl2 hd1 hd0
  have z1 : (deriv (libm_sin Real.sin) (libm_cos Real.cos) ⟨0, 0, 0, 0⟩ c).dtheta_1.is_zero
      = true := by rw [k1]; rfl
  have z2 : (deriv (libm_sin Real.sin) (libm_cos Real.cos) ⟨0, 0, 0, 0⟩ c).dtheta_2.is_zero
      = true := by rw [k2]; rfl
  have hs := state_add_rest (0.5 * T_STEP)
    (deriv (libm_sin Real.sin) (libm_cos Real.cos) ⟨0, 0, 0, 0⟩ c) half_T_STEP_is_fin
    z1 z2 k3 k4
  rw [rk4_step_eq_stages]
  simp only [hs]
  rw [weighted_sum_rest _ z1, weighted_sum_rest _ z2, weighted_sum_rest _ k3,
    weighted_sum_rest _ k4]

theorem rk4_step_iterate_rest_binary64 (n : Nat) (c : constants_t dbl)
    (hl1 : c.l_1.within (1 / 10) 1 = true) (hl2 : c.l_2.within (1 / 10) 1 = true)
    (hd1 : (deriv_denom (libm_cos Real.cos) ⟨0, 0, 0, 0⟩ c).is_fin = true)
    (hd0 : (deriv_denom (libm_cos Real.cos) ⟨0, 0, 0, 0⟩ c).is_zero = false) :
    (rk4_step (libm_sin Real.sin) (libm_cos Real.cos) c)^[n] ⟨0, 0, 0, 0⟩ = ⟨0, 0, 0, 0⟩ := by
  induction n with
  | zero => rfl
  | succ n ih =>
    rw [Function.iterate_succ_apply', ih, rk4_step_rest_binary64 c hl1 hl2 hd1 hd0]

end Binary64Integrator

/-! ## A mass ratio lost to rounding -/

section TinyMass

theorem fl_mag_one_add (d : ℚ) (h0 : 0 ≤ d) (h1 : d ≤ (2 : ℚ) ^ (-54 : ℤ)) :
    fl_mag (1 + d) = some 1 := by
  have hd : d ≤ 1 / 18014398509481984 := by
    have : (2 : ℚ) ^ (-54 : ℤ) = 1 / 18014398509481984 := by norm_num
    rwa [this] at h1
  have he : fl_exp (1 + d) = 0 := by
    obtain ⟨h, h2, -⟩ := fl_exp_eq_log (1 + d) 0 (by simpa using h0) (by norm_num)
    rw [h]
    have h3 : Int.log 2 (1 + d) < 1 := by
      rw [← Int.lt_zpow_iff_log_lt (R := ℚ) (b := 2) (by norm_num) (by linarith)]
      norm_num
      linarith
    omega
  have hr : round_even ((1 + d) / (2 : ℚ) ^ ((0 : ℤ) - 52)) = 2 ^ 52 := by
    apply round_even_eq
    · norm_num
      linarith
    · norm_num
      linarith
  simp only [fl_mag, he, hr]
  norm_num

/-- The sum `1e-20 + 1` is `1` in binary64. -/
theorem tiny_add_one : (1e-20 : dbl) + 1 = 1 := by
  have h1 : (1e-20 : dbl) = fl (1e-20 : ℚ) := rfl
  have w := fl_rat_within (1e-20 : ℚ) (-67) (-66) (by norm_num) (by norm_num) (by norm_num)
    (by norm_num)
  obtain ⟨d, hd, hd1, hd2⟩ := (dbl.within_iff _ _ _).mp w
  have hd0 : 0 < d := lt_of_lt_of_le (by positivity) hd1
  have hd3 : d ≤ (2 : ℚ) ^ (-54 : ℤ) := hd2.trans (by norm_num)
  have hm : fl_mag (d + 1) = some 1 := by
    rw [add_comm]
    exact fl_mag_one_add d hd0.le hd3
  rw [h1, hd, dbl.one_def]
  exact dbl.add_fin_pos d 1 1 (by linarith) hm

theorem tiny_pos : (1e-20 : dbl).within ((2 : ℚ) ^ (-67 : ℤ)) ((2 : ℚ) ^ (-66 : ℤ)) = true :=
  fl_rat_within (1e-20 : ℚ) (-67) (-66) (by norm_num) (by norm_num) (by norm_num)
    (by norm_num)

theorem one_mul_one : (1 : dbl) * 1 = 1 := by
  have h : fl_mag ((1 : ℚ) * 1) = some 1 := by
    have := fl_mag_one_add 0 le_rfl (by positivity)
    simpa using this
  rw [dbl.one_def, dbl.mul_fin false false 1 1 1 (by norm_num) h]
  rfl

theorem one_div_one : (1 : dbl) / 1 = 1 := by
  have h : fl_mag ((1 : ℚ) / 1) = some 1 := by
    have := fl_mag_one_add 0 le_rfl (by positivity)
    simpa using this
  rw [dbl.one_def, dbl.div_fin false false 1 1 1 (by norm_num) (by norm_num) h]
  rfl

/-- With masses `1e-20` and `1` and unit rods the denominator `deriv` computes
at rest in binary64 is `+0`. -/
theorem deriv_M_tiny : deriv_M (⟨1e-20, 1, 1, 1⟩ : constants_t dbl) = 1 := by
  rw [deriv_M]
  simp only []
  rw [tiny_add_one, one_div_one]

theorem deriv_alpha_1_tiny :
    deriv_alpha_1 (libm_cos Real.cos) (⟨0, 0, 0, 0⟩ : state_t dbl) ⟨1e-20, 1, 1, 1⟩ = 1 := by
  have hdiff : deriv_diff (⟨0, 0, 0, 0⟩ : state_t dbl) = 0 := dbl.zero_sub_zero
  rw [deriv_alpha_1, deriv_M_tiny, hdiff, libm_cos_zero]
  simp only []
  rw [one_div_one, one_mul_one, one_mul_one]

theorem deriv_alpha_2_tiny :
    deriv_alpha_2 (libm_cos Real.cos) (⟨0, 0, 0, 0⟩ : state_t dbl) ⟨1e-20, 1, 1, 1⟩ = 1 := by
  have hdiff : deriv_diff (⟨0, 0, 0, 0⟩ : state_t dbl) = 0 := dbl.zero_sub_zero
  rw [deriv_alpha_2, hdiff, libm_cos_zero]
  simp only []
  rw [one_div_one, one_mul_one]

/-- With masses `1e-20` and `1` and unit rods the denominator `deriv` computes
at rest in binary64 is `+0`. -/
theorem deriv_denom_tiny :
    deriv_denom (libm_cos Real.cos) (⟨0, 0, 0, 0⟩ : state_t dbl) ⟨1e-20, 1, 1, 1⟩ = 0 := by
  rw [deriv_denom, deriv_alpha_1_tiny, deriv_alpha_2_tiny, one_mul_one]
  exact dbl.one_sub_one

theorem one_within : (1 : dbl).within (1 / 10) 1 = true := by
  rw [dbl.within_iff]
  exact ⟨1, rfl, by norm_num, le_rfl⟩

/-- With masses `1e-20` and `1` and unit rods `deriv` returns NaN accelerations
at rest in binary64. -/
theorem deriv_tiny :
    deriv (libm_sin Real.sin) (libm_cos Real.cos) (⟨0, 0, 0, 0⟩ : state_t dbl)
      ⟨1e-20, 1, 1, 1⟩ = ⟨0, 0, dbl.nan, dbl.nan⟩ :=
  deriv_rest_nan _ one_within one_within (by rw [deriv_denom_tiny]; rfl)

/-- With masses `1e-20` and `1` and unit rods one integrator call turns the
rest state into NaN in binary64. -/
theorem rk4_step_tiny :
    rk4_step (libm_sin Real.sin) (libm_cos Real.cos) ⟨1e-20, 1, 1, 1⟩
      (⟨0, 0, 0, 0⟩ : state_t dbl) = ⟨dbl.nan, dbl.nan, dbl.nan, dbl.nan⟩ := by
  have hz : (0 : dbl).is_zero = true := rfl
  have h0 : (0 : dbl) + 0.5 * T_STEP * 0 = 0 :=
    dbl.zero_add_of_is_zero _ (dbl.mul_is_zero_right _ _ half_T_STEP_is_fin hz)
  have hs1 : state_add (⟨0, 0, 0, 0⟩ : state_t dbl) (0.5 * T_STEP) ⟨0, 0, dbl.nan, dbl.nan⟩
      = ⟨0, 0, dbl.nan, dbl.nan⟩ := by
    simp only [state_add, h0, dbl.mul_nan, dbl.add_nan]
  have hs2 : state_add (⟨0, 0, 0, 0⟩ : state_t dbl) (0.5 * T_STEP)
      ⟨dbl.nan, dbl.nan, dbl.nan, dbl.nan⟩ = ⟨dbl.nan, dbl.nan, dbl.nan, dbl.nan⟩ := by
    simp only [state_add, dbl.mul_nan, dbl.add_nan]
  rw [rk4_step_eq_stages]
  simp only [deriv_tiny, hs1, hs2, deriv_of_omega_nan, dbl.mul_nan, dbl.add_nan, dbl.nan_add]

end TinyMass

/-! ## The tiny first mass as an input of `main` -/

section TinyInput

theorem hundred_div_hundred : (100 : dbl) / 100 = 1 := by
  have h1 : (100 : dbl) = fl (100 : ℚ) := by
    show fl (((100 : ℕ) : ℚ)) = _
    norm_num
  have w := fl_rat_within (100 : ℚ) 6 7 (by norm_num) (by norm_num) (by norm_num)
    (by norm_num)
  obtain ⟨a, ha, ha1, -⟩ := (dbl.within_iff _ _ _).mp w
  have ha0 : 0 < a := lt_of_lt_of_le (by positivity) ha1
  have h : fl_mag (a / a) = some 1 := by
    rw [div_self ha0.ne']
    have := fl_mag_one_add 0 le_rfl (by positivity)
    simpa using this
  rw [h1, ha, dbl.div_fin false false a a 1 ha0.ne' ha0.ne' h]
  rfl

theorem deg_to_rad_zero : deg_to_rad (0 : dbl) = 0 := by
  have h1 : (180 : dbl) = fl (180 : ℚ) := by
    show fl (((180 : ℕ) : ℚ)) = _
    norm_num
  have h2 : (PI : dbl) = fl (3.1415927 : ℚ) := rfl
  have w1 := fl_rat_within (180 : ℚ) 7 8 (by norm_num) (by norm_num) (by norm_num)
    (by norm_num)
  have w2 := fl_rat_within (3.1415927 : ℚ) 1 2 (by norm_num) (by norm_num) (by norm_num)
    (by norm_num)
  obtain ⟨a, ha, ha1, -⟩ := (dbl.within_iff _ _ _).mp w1
  obtain ⟨b, hb, -, -⟩ := (dbl.within_iff _ _ _).mp w2
  have ha0 : 0 < a := lt_of_lt_of_le (by positivity) ha1
  rw [deg_to_rad, h1, h2, ha, hb, dbl.zero_def, dbl.mul_fin_zero false false 0 b (by simp),
    dbl.zero_div_fin _ _ a ha0.ne']
  rfl

/-- The constants and the state `main` builds in binary64 from the input
`1e-20`, `1`, `100`, `100`, `0`, `0`. -/
theorem main_tiny :
    main_constants (init_conds_tiny : ics_t → dbl) = ⟨1e-20, 1, 1, 1⟩ ∧
    main_state (init_conds_tiny : ics_t → dbl) = ⟨0, 0, 0, 0⟩ := by
  constructor
  · rw [main_constants]
    simp only [init_conds_tiny]
    rw [hundred_div_hundred]
  · rw [main_state]
    simp only [init_conds_tiny]
    rw [deg_to_rad_zero]

end TinyInput

/-! ## The binary64 denominator from the constants -/

section Binary64Denominator

/-- In binary64, for masses between 1e-99 and 10 with `m_1 ≥ 2 ^ -48 * m_2`,
rod lengths between 0.1 and 1 and a finite angle difference, the denominator
`deriv` computes lies between `2 ^ -50` and `1`, and the sum of the masses is
finite and not zero. -/
theorem deriv_denom_within (s : state_t dbl) (c : constants_t dbl)
    (hm1 : c.m_1.within (1 / 10 ^ 99) 10 = true) (hm2 : c.m_2.within (1 / 10 ^ 99) 10 = true)
    (hl1 : c.l_1.within (1 / 10) 1 = true) (hl2 : c.l_2.within (1 / 10) 1 = true)
    (hr : (2 : ℚ) ^ (-48 : ℤ) * c.m_2.val ≤ c.m_1.val)
    (hd : (deriv_diff s).is_fin = true) :
    (deriv_denom (libm_cos Real.cos) s c).within ((2 : ℚ) ^ (-50 : ℤ)) 1 = true ∧
    (c.m_1 + c.m_2).is_fin = true ∧ (c.m_1 + c.m_2).is_zero = false := by
  obtain ⟨m1, e1, a1, b1⟩ := (dbl.within_iff _ _ _).mp hm1
  obtain ⟨m2, e2, a2, b2⟩ := (dbl.within_iff _ _ _).mp hm2
  obtain ⟨l1, e3, a3, b3⟩ := (dbl.within_iff _ _ _).mp hl1
  obtain ⟨l2, e4, a4, b4⟩ := (dbl.within_iff _ _ _).mp hl2
  have hr' : (2 : ℚ) ^ (-48 : ℤ) * m2 ≤ m1 := by
    rw [e1, e2] at hr
    simpa [dbl.val] using hr
  obtain ⟨S, M, hS, hSpos, hM, hM0, hM1⟩ := deriv_M_bounds c m1 m2 e1 e2 a1 b1 a2 b2 hr'
  obtain ⟨d, hd1, hd2, hd3⟩ := deriv_denom_of_M s c l1 l2 M e3 e4 a3 b3 a4 b4 hM hM0 hM1 hd
  refine ⟨?_, ?_, ?_⟩
  · rw [dbl.within_iff]
    exact ⟨d, hd1, hd2, hd3⟩
  · rw [hS]
    rfl
  · rw [hS]
    simp [dbl.is_zero, hSpos.ne']

theorem deriv_diff_rest_is_fin :
    (deriv_diff (⟨0, 0, 0, 0⟩ : state_t dbl)).is_fin = true := by
  have h : deriv_diff (⟨0, 0, 0, 0⟩ : state_t dbl) = 0 := dbl.zero_sub_zero
  rw [h]
  rfl

theorem one_within_mass : (1 : dbl).within (1 / 10 ^ 99) 10 = true := by
  rw [dbl.within_iff]
  exact ⟨1, rfl, by norm_num, by norm_num⟩

/-- With unit masses and rods the denominator `deriv` computes at rest in
binary64 lies between `2 ^ -50` and `1`. -/
theorem deriv_denom_unit :
    (deriv_denom (libm_cos Real.cos) (⟨0, 0, 0, 0⟩ : state_t dbl) ⟨1, 1, 1, 1⟩).within
      ((2 : ℚ) ^ (-50 : ℤ)) 1 = true :=
  (deriv_denom_within ⟨0, 0, 0, 0⟩ ⟨1, 1, 1, 1⟩ one_within_mass one_within_mass one_within
    one_within (by norm_num [dbl.val, dbl.one_def])
    deriv_diff_rest_is_fin).1

end Binary64Denominator

/-! ## The integrator against the classic Runge-Kutta scheme -/

section Integrator

/-- C1: at the state `(0, 0, 1, 1)` with unit masses and rods, one call of
`runge_kutta_4` does not produce the classic fourth-order Runge-Kutta update
with `dt = T_STEP`: the fourth stage of the code is evaluated at
`s + dt/2 * k3`, not at `s + dt * k3`, and the new `theta_1` exceeds the
classic one by `dt^2/12 * g * sin(0.005)`, which is positive. -/
theorem runge_kutta_4_ne_rk4_classic :
    (runge_kutta_4 Real.sin Real.cos ⟨0, 0, 1, 1⟩ ⟨1, 1, 1, 1⟩ 0).1.theta_1
      = (rk4_classic Real.sin Real.cos T_STEP ⟨0, 0, 1, 1⟩ ⟨1, 1, 1, 1⟩).theta_1
        + 0.01 ^ 2 / 12 * (9.8 * Real.sin 0.005) ∧
    (runge_kutta_4 Real.sin Real.cos ⟨0, 0, 1, 1⟩ ⟨1, 1, 1, 1⟩ 0).1
      ≠ rk4_classic Real.sin Real.cos T_STEP ⟨0, 0, 1, 1⟩ ⟨1, 1, 1, 1⟩ := by
  have key : (runge_kutta_4 Real.sin Real.cos ⟨0, 0, 1, 1⟩ ⟨1, 1, 1, 1⟩ 0).1.theta_1
      = (rk4_classic Real.sin Real.cos T_STEP ⟨0, 0, 1, 1⟩ ⟨1, 1, 1, 1⟩).theta_1
        + 0.01 ^ 2 / 12 * (9.8 * Real.sin 0.005) := by
    have k1 : deriv Real.sin Real.cos ⟨0, 0, 1, 1⟩ ⟨1, 1, 1, 1⟩ = ⟨1, 1, 0, 0⟩ := by
      rw [deriv_of_angles_eq _ _ rfl (by norm_num) (by norm_num) (by norm_num) (by norm_num)]
      simp
    have k2 : deriv Real.sin Real.cos ⟨0.005, 0.005, 1, 1⟩ ⟨1, 1, 1, 1⟩
        = ⟨1, 1, -(9.8 * Real.sin 0.005), 0⟩ := by
      rw [deriv_of_angles_eq _ _ rfl (by norm_num) (by norm_num) (by norm_num) (by norm_num)]
      simp [G]
    have k3 : deriv Real.sin Real.cos ⟨0.005, 0.005, 1 + 0.005 * -(9.8 * Real.sin 0.005), 1⟩
        ⟨1, 1, 1, 1⟩
        = ⟨1 + 0.005 * -(9.8 * Real.sin 0.005), 1, -(9.8 * Real.sin 0.005), 0⟩ := by
      rw [deriv_of_angles_eq _ _ rfl (by norm_num) (by norm_num) (by norm_num) (by norm_num)]
      simp [G]
    have e1 : (0.5 : ℝ) * 0.01 = 0.005 := by norm_num
    have e2 : (0.01 : ℝ) / 2 = 0.005 := by norm_num
    simp only [runge_kutta_4, rk4_classic, state_add, T_STEP, k1, e1, e2, mul_one, mul_zero,
      add_zero, zero_add, k2, k3]
    simp only [deriv]
    ring
  refine ⟨key, fun h => ?_⟩
  rw [h] at key
  have hs : 0 < Real.sin 0.005 :=
    Real.sin_pos_of_pos_of_lt_pi (by norm_num) (by linarith [Real.pi_gt_three])
  nlinarith

end Integrator

/-! ## The derivative function -/

section DerivativeFunction

/-- C2: for every state and constants, `deriv` returns the sample given by the
closed form of the specification with `g = 9.8`. -/
theorem deriv_closed_form (s : state_t ℝ) (c : constants_t ℝ) :
    let g : ℝ := 9.8
    let M := c.m_2 / (c.m_1 + c.m_2)
    let diff := s.theta_1 - s.theta_2
    let f1 := -(c.l_2 / c.l_1) * M * s.omega_2 ^ 2 * Real.sin diff
      - (g / c.l_1) * Real.sin s.theta_1
    let f2 := (c.l_1 / c.l_2) * s.omega_1 ^ 2 * Real.sin diff
      - (g / c.l_2) * Real.sin s.theta_2
    let alpha1 := (c.l_2 / c.l_1) * M * Real.cos diff
    let alpha2 := (c.l_1 / c.l_2) * Real.cos diff
    let denom := 1 - alpha1 * alpha2
    deriv Real.sin Real.cos s c =
      { dtheta_1 := s.omega_1
        dtheta_2 := s.omega_2
        d2theta_1 := (f1 - alpha1 * f2) / denom
        d2theta_2 := (-alpha2 * f1 + f2) / denom } := by
  intro g M diff f1 f2 alpha1 alpha2 denom
  simp only [deriv, deriv_f_1, deriv_f_2, deriv_alpha_1, deriv_alpha_2, deriv_denom, deriv_M,
    deriv_diff, G, g, M, diff, f1, f2, alpha1, alpha2, denom]

/-- C8: in the binary64 arithmetic of the code, for every state with
a finite angle difference and constants with masses between 1e-99 and 10,
`m_1 ≥ 2 ^ -48 * m_2` and rod lengths between 0.1 and 1, the denominator
computed in `deriv` is a finite number between `2 ^ -50` and `1`, and none of
the divisors `l_1`, `l_2`, `m_1 + m_2` is zero.  In exact real arithmetic, for
positive masses and lengths, the denominator equals
`1 - (m2/(m1+m2)) * cos(theta1 - theta2)^2` and is at least `m1/(m1+m2)`, which
is positive, so that none of the divisors is zero. -/
theorem deriv_denom_bounded_away (s' : state_t dbl) (c' : constants_t dbl)
    (hm1' : c'.m_1.within (1 / 10 ^ 99) 10 = true)
    (hm2' : c'.m_2.within (1 / 10 ^ 99) 10 = true)
    (hl1' : c'.l_1.within (1 / 10) 1 = true) (hl2' : c'.l_2.within (1 / 10) 1 = true)
    (hr : (2 : ℚ) ^ (-48 : ℤ) * c'.m_2.val ≤ c'.m_1.val)
    (hd : (deriv_diff s').is_fin = true)
    (s : state_t ℝ) (c : constants_t ℝ)
    (hm1 : 0 < c.m_1) (hm2 : 0 < c.m_2) (hl1 : 0 < c.l_1) (hl2 : 0 < c.l_2) :
    ((deriv_denom (libm_cos Real.cos) s' c').within ((2 : ℚ) ^ (-50 : ℤ)) 1 = true ∧
      (c'.m_1 + c'.m_2).is_fin = true ∧ (c'.m_1 + c'.m_2).is_zero = false ∧
      c'.l_1.is_zero = false ∧ c'.l_2.is_zero = false) ∧
    (deriv_denom Real.cos s c = 1 - deriv_alpha_1 Real.cos s c * deriv_alpha_2 Real.cos s c ∧
      deriv_denom Real.cos s c
        = 1 - (c.m_2 / (c.m_1 + c.m_2)) * Real.cos (s.theta_1 - s.theta_2) ^ 2 ∧
      c.m_1 / (c.m_1 + c.m_2) ≤ deriv_denom Real.cos s c ∧
      0 < c.m_1 / (c.m_1 + c.m_2) ∧
      deriv_denom Real.cos s c ≠ 0 ∧ c.l_1 ≠ 0 ∧ c.l_2 ≠ 0 ∧ c.m_1 + c.m_2 ≠ 0) := by
  have hm : 0 < c.m_1 + c.m_2 := by linarith
  have hM : 0 < c.m_1 / (c.m_1 + c.m_2) := div_pos hm1 hm
  have h2 := deriv_denom_ge s c hm1 hm2 hl1 hl2
  obtain ⟨d1, d2, d3⟩ := deriv_denom_within s' c' hm1' hm2' hl1' hl2' hr hd
  exact ⟨⟨d1, d2, d3, dbl.is_zero_of_within _ _ _ hl1' (by norm_num),
      dbl.is_zero_of_within _ _ _ hl2' (by norm_num)⟩,
    rfl, deriv_denom_eq s c hl1.ne' hl2.ne', h2, hM, (lt_of_lt_of_le hM h2).ne',
    hl1.ne', hl2.ne', hm.ne'⟩

/-- Witness of C8: unit masses and rods at rest in binary64; in real
arithmetic the state and constants `main` builds from masses 10 and 1, rods of
100 cm and angles of 45 degrees. -/
theorem deriv_denom_bounded_away_witness :
    ((1 : dbl).within (1 / 10 ^ 99) 10 = true ∧ (1 : dbl).within (1 / 10) 1 = true ∧
      (0 : ℝ) < (main_constants init_conds_45).m_1) ∧
    (deriv_denom (libm_cos Real.cos) (⟨0, 0, 0, 0⟩ : state_t dbl) ⟨1, 1, 1, 1⟩).within
      ((2 : ℚ) ^ (-50 : ℤ)) 1 = true ∧
    (10 : ℝ) / (10 + 1)
      ≤ deriv_denom Real.cos (main_state init_conds_45) (main_constants init_conds_45) :=
  have h1 : (0 : ℝ) < (main_constants init_conds_45).m_1 := by
    norm_num [main_constants, init_conds_45]
  have h2 : (0 : ℝ) < (main_constants init_conds_45).m_2 := by
    norm_num [main_constants, init_conds_45]
  have h3 : (0 : ℝ) < (main_constants init_conds_45).l_1 := by
    norm_num [main_constants, init_conds_45]
  have h4 : (0 : ℝ) < (main_constants init_conds_45).l_2 := by
    norm_num [main_constants, init_conds_45]
  have h := deriv_denom_bounded_away ⟨0, 0, 0, 0⟩ ⟨1, 1, 1, 1⟩ one_within_mass one_within_mass
    one_within one_within (by norm_num [dbl.val, dbl.one_def])
    deriv_diff_rest_is_fin
    (main_state init_conds_45) (main_constants init_conds_45) h1 h2 h3 h4
  ⟨⟨one_within_mass, one_within, h1⟩, h.1.1, h.2.2.2.1⟩

/-- C8 at a first mass lost to rounding: the input `1e-20`, `1`, `100`, `100`, `0`, `0` passes
the range checks and gives `main` the constants `(1e-20, 1, 1, 1)`, with both
masses positive, and the rest state; there the denominator computed in `deriv`
in binary64 is exactly `0`, and the two divisions by it are `0/0`. -/
theorem deriv_denom_zero_binary64 :
    (main_constants (init_conds_tiny : ics_t → dbl) = ⟨1e-20, 1, 1, 1⟩ ∧
      main_state (init_conds_tiny : ics_t → dbl) = ⟨0, 0, 0, 0⟩) ∧
    ((1e-20 : dbl).within ((2 : ℚ) ^ (-67 : ℤ)) ((2 : ℚ) ^ (-66 : ℤ)) = true ∧
      (1 : dbl).within (1 / 10) 1 = true) ∧
    deriv_denom (libm_cos Real.cos) (⟨0, 0, 0, 0⟩ : state_t dbl) ⟨1e-20, 1, 1, 1⟩ = 0 ∧
    (deriv (libm_sin Real.sin) (libm_cos Real.cos) (⟨0, 0, 0, 0⟩ : state_t dbl)
      ⟨1e-20, 1, 1, 1⟩).d2theta_1 = dbl.nan ∧
    (deriv (libm_sin Real.sin) (libm_cos Real.cos) (⟨0, 0, 0, 0⟩ : state_t dbl)
      ⟨1e-20, 1, 1, 1⟩).d2theta_2 = dbl.nan := by
  refine ⟨main_tiny, ⟨tiny_pos, one_within⟩, deriv_denom_tiny, ?_, ?_⟩
  · rw [deriv_tiny]
  · rw [deriv_tiny]

end DerivativeFunction

/-! ## Equilibrium and mirror symmetry -/

section Symmetry

/-- C5: in the binary64 arithmetic of the code, for rod lengths
between 0.1 and 1 and constants for which the denominator `deriv` computes at
the rest state is finite and not zero, `deriv` returns zeros in all four
components at the state with both angles and both angular velocities zero,
`runge_kutta_4` leaves that state unchanged, and after any number `n` of
`runge_kutta_4` calls the state is still `(0, 0, 0, 0)`.  In exact real
arithmetic the same holds for all positive masses and lengths, where no divisor
of `deriv` is zero. -/
theorem rest_state_stays_at_rest (c' : constants_t dbl) (t' : dbl) (n : Nat)
    (hl1' : c'.l_1.within (1 / 10) 1 = true) (hl2' : c'.l_2.within (1 / 10) 1 = true)
    (hd1 : (deriv_denom (libm_cos Real.cos) ⟨0, 0, 0, 0⟩ c').is_fin = true)
    (hd0 : (deriv_denom (libm_cos Real.cos) ⟨0, 0, 0, 0⟩ c').is_zero = false)
    (c : constants_t ℝ) (t : ℝ)
    (hm1 : 0 < c.m_1) (hm2 : 0 < c.m_2) (hl1 : 0 < c.l_1) (hl2 : 0 < c.l_2) :
    ((deriv (libm_sin Real.sin) (libm_cos Real.cos) ⟨0, 0, 0, 0⟩ c').dtheta_1 = 0 ∧
      (deriv (libm_sin Real.sin) (libm_cos Real.cos) ⟨0, 0, 0, 0⟩ c').dtheta_2 = 0 ∧
      (deriv (libm_sin Real.sin) (libm_cos Real.cos) ⟨0, 0, 0, 0⟩ c').d2theta_1.is_zero
        = true ∧
      (deriv (libm_sin Real.sin) (libm_cos Real.cos) ⟨0, 0, 0, 0⟩ c').d2theta_2.is_zero
        = true ∧
      (runge_kutta_4 (libm_sin Real.sin) (libm_cos Real.cos) ⟨0, 0, 0, 0⟩ c' t').1
        = ⟨0, 0, 0, 0⟩ ∧
      (rk4_step (libm_sin Real.sin) (libm_cos Real.cos) c')^[n] ⟨0, 0, 0, 0⟩
        = ⟨0, 0, 0, 0⟩) ∧
    ((deriv_denom Real.cos ⟨0, 0, 0, 0⟩ c ≠ 0 ∧ c.l_1 ≠ 0 ∧ c.l_2 ≠ 0 ∧ c.m_1 + c.m_2 ≠ 0) ∧
      deriv Real.sin Real.cos ⟨0, 0, 0, 0⟩ c = ⟨0, 0, 0, 0⟩ ∧
      (runge_kutta_4 Real.sin Real.cos ⟨0, 0, 0, 0⟩ c t).1 = ⟨0, 0, 0, 0⟩ ∧
      (rk4_step Real.sin Real.cos c)^[n] ⟨0, 0, 0, 0⟩ = ⟨0, 0, 0, 0⟩) := by
  have hm : 0 < c.m_1 + c.m_2 := by linarith
  have hd := lt_of_lt_of_le (div_pos hm1 hm) (deriv_denom_ge ⟨0, 0, 0, 0⟩ c hm1 hm2 hl1 hl2)
  obtain ⟨k1, k2, k3, k4⟩ := deriv_rest_binary64 c' hl1' hl2' hd1 hd0
  exact ⟨⟨k1, k2, k3, k4, rk4_step_rest_binary64 c' hl1' hl2' hd1 hd0,
      rk4_step_iterate_rest_binary64 n c' hl1' hl2' hd1 hd0⟩,
    ⟨hd.ne', hl1.ne', hl2.ne', hm.ne'⟩, deriv_rest c, rk4_step_rest c,
    rk4_step_iterate_rest n c⟩

/-- Witness of C5: unit masses and rods and five integrator calls in binary64;
masses 2 and 3, rods 0.5 and 0.7 in real arithmetic. -/
theorem rest_state_stays_at_rest_witness :
    ((1 : dbl).within (1 / 10) 1 = true ∧
      (deriv_denom (libm_cos Real.cos) (⟨0, 0, 0, 0⟩ : state_t dbl) ⟨1, 1, 1, 1⟩).is_zero
        = false ∧
      (0 : ℝ) < 2 ∧ (0 : ℝ) < 3 ∧ (0 : ℝ) < 0.5 ∧ (0 : ℝ) < 0.7) ∧
    (rk4_step (libm_sin Real.sin) (libm_cos Real.cos) ⟨1, 1, 1, 1⟩)^[5]
        (⟨0, 0, 0, 0⟩ : state_t dbl) = ⟨0, 0, 0, 0⟩ ∧
    (rk4_step Real.sin Real.cos ⟨2, 3, 0.5, 0.7⟩)^[5] ⟨0, 0, 0, 0⟩ = ⟨0, 0, 0, 0⟩ :=
  have hz := dbl.is_zero_of_within _ _ _ deriv_denom_unit (by positivity)
  have h := rest_state_stays_at_rest ⟨1, 1, 1, 1⟩ 0 5 one_within one_within
    (dbl.is_fin_of_within _ _ _ deriv_denom_unit) hz
    ⟨2, 3, 0.5, 0.7⟩ 0 (by norm_num) (by norm_num) (by norm_num) (by norm_num)
  ⟨⟨one_within, hz, by norm_num, by norm_num, by norm_num, by norm_num⟩,
    h.1.2.2.2.2.2, h.2.2.2.2⟩

/-- C5 at a first mass lost to rounding: the input `1e-20`, `1`, `100`, `100`, `0`, `0` passes
the range checks and gives `main` the constants `(1e-20, 1, 1, 1)`, with both
masses positive, and the rest state; there `deriv` returns NaN accelerations
in binary64 and one `runge_kutta_4` call turns the rest state into NaN. -/
theorem rest_state_turns_nan :
    (main_constants (init_conds_tiny : ics_t → dbl) = ⟨1e-20, 1, 1, 1⟩ ∧
      main_state (init_conds_tiny : ics_t → dbl) = ⟨0, 0, 0, 0⟩) ∧
    ((1e-20 : dbl).within ((2 : ℚ) ^ (-67 : ℤ)) ((2 : ℚ) ^ (-66 : ℤ)) = true ∧
      (1 : dbl).within (1 / 10) 1 = true) ∧
    deriv (libm_sin Real.sin) (libm_cos Real.cos) (⟨0, 0, 0, 0⟩ : state_t dbl)
      ⟨1e-20, 1, 1, 1⟩ = ⟨0, 0, dbl.nan, dbl.nan⟩ ∧
    (runge_kutta_4 (libm_sin Real.sin) (libm_cos Real.cos) (⟨0, 0, 0, 0⟩ : state_t dbl)
      ⟨1e-20, 1, 1, 1⟩ 0).1 = ⟨dbl.nan, dbl.nan, dbl.nan, dbl.nan⟩ ∧
    (runge_kutta_4 (libm_sin Real.sin) (libm_cos Real.cos) (⟨0, 0, 0, 0⟩ : state_t dbl)
      ⟨1e-20, 1, 1, 1⟩ 0).1 ≠ ⟨0, 0, 0, 0⟩ := by
  have e : (runge_kutta_4 (libm_sin Real.sin) (libm_cos Real.cos) (⟨0, 0, 0, 0⟩ : state_t dbl)
      ⟨1e-20, 1, 1, 1⟩ 0).1 = ⟨dbl.nan, dbl.nan, dbl.nan, dbl.nan⟩ := rk4_step_tiny
  refine ⟨main_tiny, ⟨tiny_pos, one_within⟩, deriv_tiny, e, ?_⟩
  rw [e]
  intro h
  have h1 := congrArg state_t.theta_1 h
  simp [dbl.zero_def] at h1

/-- C10: negating the four state components negates the derivative sample;
`runge_kutta_4` and its iterates commute with the negation; and when the two
initial angles are negated every entry of the angle arrays of `main` is
negated. -/
theorem mirror_symmetry (s : state_t ℝ) (c : constants_t ℝ) (t : ℝ) (n : Nat)
    (init_conds : ics_t → ℝ) (i : Nat) :
    deriv Real.sin Real.cos (state_neg s) c = deriv_neg (deriv Real.sin Real.cos s c) ∧
    (runge_kutta_4 Real.sin Real.cos (state_neg s) c t).1
      = state_neg (runge_kutta_4 Real.sin Real.cos s c t).1 ∧
    (rk4_step Real.sin Real.cos c)^[n] (state_neg s)
      = state_neg ((rk4_step Real.sin Real.cos c)^[n] s) ∧
    (main Real.sin Real.cos (init_conds_mirror init_conds)).1.theta_1_arr.getD i 0
      = -((main Real.sin Real.cos init_conds).1.theta_1_arr.getD i 0) ∧
    (main Real.sin Real.cos (init_conds_mirror init_conds)).1.theta_2_arr.getD i 0
      = -((main Real.sin Real.cos init_conds).1.theta_2_arr.getD i 0) := by
  refine ⟨deriv_state_neg s c, rk4_step_state_neg s c, rk4_step_iterate_state_neg n s c, ?_⟩
  have hc : main_constants (init_conds_mirror init_conds) = main_constants init_conds := rfl
  have hs : main_state (init_conds_mirror init_conds) = state_neg (main_state init_conds) := by
    apply state_t.ext <;> simp [main_state, init_conds_mirror, state_neg, deg_to_rad] <;> ring
  by_cases hi : i < total_steps
  · obtain ⟨a1, a2⟩ := main_theta_entry Real.sin Real.cos init_conds i hi
    obtain ⟨b1, b2⟩ := main_theta_entry Real.sin Real.cos (init_conds_mirror init_conds) i hi
    rw [hc, hs, rk4_step_iterate_state_neg] at b1 b2
    simp only [List.getD_eq_getElem?_getD, a1, a2, b1, b2, Option.getD_some, state_neg,
      and_self]
  · obtain ⟨a1, a2⟩ := main_theta_length Real.sin Real.cos init_conds
    obtain ⟨b1, b2⟩ := main_theta_length Real.sin Real.cos (init_conds_mirror init_conds)
    have hn : total_steps ≤ i := Nat.le_of_not_lt hi
    simp only [List.getD_eq_getElem?_getD,
      List.getElem?_eq_none (le_of_eq_of_le a1 hn), List.getElem?_eq_none (le_of_eq_of_le a2 hn),
      List.getElem?_eq_none (le_of_eq_of_le b1 hn), List.getElem?_eq_none (le_of_eq_of_le b2 hn),
      Option.getD_none, neg_zero, and_self]

end Symmetry

/-! ## The trajectory generator -/

section Trajectory

/-- C7: the state and constants after `runge_kutta_4` do not depend on the time
argument, the constants are left unchanged, and the angle and position arrays
of `main` depend on the initial conditions only through the initial state and
the constants; the angle arrays are also the same when the time accumulator
starts at any `t0` instead of `0`. -/
theorem trajectory_deterministic (s : state_t ℝ) (c : constants_t ℝ) (t t' t0 : ℝ)
    (init_conds init_conds' : ics_t → ℝ)
    (hs : main_state init_conds = main_state init_conds')
    (hc : main_constants init_conds = main_constants init_conds') :
    runge_kutta_4 Real.sin Real.cos s c t = runge_kutta_4 Real.sin Real.cos s c t' ∧
    (runge_kutta_4 Real.sin Real.cos s c t).2 = c ∧
    (main Real.sin Real.cos init_conds).1.theta_1_arr
      = (main Real.sin Real.cos init_conds').1.theta_1_arr ∧
    (main Real.sin Real.cos init_conds).1.theta_2_arr
      = (main Real.sin Real.cos init_conds').1.theta_2_arr ∧
    (main Real.sin Real.cos init_conds).2 = (main Real.sin Real.cos init_conds').2 ∧
    (sim_loop Real.sin Real.cos total_steps
        { main_sim_init init_conds with t := t0 }).theta_1_arr
      = (main Real.sin Real.cos init_conds).1.theta_1_arr ∧
    (sim_loop Real.sin Real.cos total_steps
        { main_sim_init init_conds with t := t0 }).theta_2_arr
      = (main Real.sin Real.cos init_conds).1.theta_2_arr := by
  obtain ⟨l1, l2⟩ := main_sim_init_length init_conds
  obtain ⟨l1', l2'⟩ := main_sim_init_length init_conds'
  have h := sim_loop_arr_ext Real.sin Real.cos total_steps (main_sim_init init_conds)
    (main_sim_init init_conds') hs hc (l1.trans l1'.symm) l1.le (l2.trans l2'.symm) l2.le
  have h0 := sim_loop_arr_ext Real.sin Real.cos total_steps
    { main_sim_init init_conds with t := t0 } (main_sim_init init_conds) rfl rfl rfl l1.le
    rfl l2.le
  have hc' : (sim_loop Real.sin Real.cos total_steps (main_sim_init init_conds)).constants
      = (sim_loop Real.sin Real.cos total_steps (main_sim_init init_conds')).constants := by
    rw [sim_loop_constants, sim_loop_constants]
    exact hc
  refine ⟨rfl, rfl, h.1, h.2, ?_, h0.1, h0.2⟩
  simp only [main, h.1, h.2, hc']

/-- Witness of C7: the initial conditions with angles of 45 degrees against
themselves. -/
theorem trajectory_deterministic_witness :
    (main_state init_conds_45 = main_state (init_conds_45 : ics_t → ℝ) ∧
      main_constants init_conds_45 = main_constants (init_conds_45 : ics_t → ℝ)) ∧
    (sim_loop Real.sin Real.cos total_steps
        { main_sim_init init_conds_45 with t := 7 }).theta_1_arr
      = (main Real.sin Real.cos init_conds_45).1.theta_1_arr :=
  ⟨⟨rfl, rfl⟩,
    (trajectory_deterministic ⟨0, 0, 0, 0⟩ ⟨1, 1, 1, 1⟩ 0 1 7 init_conds_45 init_conds_45
      rfl rfl).2.2.2.2.2.1⟩

/-- C4: `polar_to_car` yields `x = length*sin(theta)`, `y = length*cos(theta)`;
for every index `i` below `total_steps` the positions `main` stores are
`point1 = (S*l1*sin(theta1_i), S*l1*cos(theta1_i))` and
`point2 = point1 + (S*l2*sin(theta2_i), S*l2*cos(theta2_i))` with
`S = SCALE_CONST`; and for angles `0` and scaled rod lengths `1` the loop body
stores `point1 = (0, 1)` and `point2 = (0, 2)`. -/
theorem positions_chained (init_conds : ics_t → ℝ) (i : Nat) (hi : i < total_steps)
    (theta length m_1 m_2 : ℝ) :
    polar_to_car Real.sin Real.cos theta length
      = ⟨length * Real.sin theta, length * Real.cos theta⟩ ∧
    (main Real.sin Real.cos init_conds).2.x_1_arr[i]?
      = some (SCALE_CONST * (main_constants init_conds).l_1
          * Real.sin ((main Real.sin Real.cos init_conds).1.theta_1_arr.getD i 0)) ∧
    (main Real.sin Real.cos init_conds).2.y_1_arr[i]?
      = some (SCALE_CONST * (main_constants init_conds).l_1
          * Real.cos ((main Real.sin Real.cos init_conds).1.theta_1_arr.getD i 0)) ∧
    (main Real.sin Real.cos init_conds).2.x_2_arr[i]?
      = some ((main Real.sin Real.cos init_conds).2.x_1_arr.getD i 0
          + SCALE_CONST * (main_constants init_conds).l_2
            * Real.sin ((main Real.sin Real.cos init_conds).1.theta_2_arr.getD i 0)) ∧
    (main Real.sin Real.cos init_conds).2.y_2_arr[i]?
      = some ((main Real.sin Real.cos init_conds).2.y_1_arr.getD i 0
          + SCALE_CONST * (main_constants init_conds).l_2
            * Real.cos ((main Real.sin Real.cos init_conds).1.theta_2_arr.getD i 0)) ∧
    convert_body Real.sin Real.cos ⟨m_1, m_2, 1 / 100, 1 / 100⟩ [0] [0] ⟨[0], [0], [0], [0]⟩ 0
      = { x_1_arr := [0], y_1_arr := [1], x_2_arr := [0], y_2_arr := [2] } := by
  have hcs := (main_state_final Real.sin Real.cos init_conds).2.1
  obtain ⟨e1, e2, e3, e4⟩ := convert_loop_entry Real.sin Real.cos total_steps
    (main Real.sin Real.cos init_conds).1.constants
    (main Real.sin Real.cos init_conds).1.theta_1_arr
    (main Real.sin Real.cos init_conds).1.theta_2_arr main_pos_init i
    (by simpa [main_pos_init] using hi) (by simpa [main_pos_init] using hi)
    (by simpa [main_pos_init] using hi) (by simpa [main_pos_init] using hi)
  simp only [hi, if_true, hcs, polar_to_car] at e1 e2 e3 e4
  have m2 : (main Real.sin Real.cos init_conds).2
      = convert_loop Real.sin Real.cos total_steps
          (main Real.sin Real.cos init_conds).1.constants
          (main Real.sin Real.cos init_conds).1.theta_1_arr
          (main Real.sin Real.cos init_conds).1.theta_2_arr main_pos_init := rfl
  rw [m2, hcs]
  refine ⟨rfl, e1, e2, ?_, ?_, ?_⟩
  · have g := List.getD_eq_getElem?_getD (convert_loop Real.sin Real.cos total_steps
      (main_constants init_conds) (main Real.sin Real.cos init_conds).1.theta_1_arr
      (main Real.sin Real.cos init_conds).1.theta_2_arr main_pos_init).x_1_arr i 0
    rw [e1, Option.getD_some] at g
    rw [e3, g, add_comm]
  · have g := List.getD_eq_getElem?_getD (convert_loop Real.sin Real.cos total_steps
      (main_constants init_conds) (main Real.sin Real.cos init_conds).1.theta_1_arr
      (main Real.sin Real.cos init_conds).1.theta_2_arr main_pos_init).y_1_arr i 0
    rw [e2, Option.getD_some] at g
    rw [e4, g, add_comm]
  · simp [convert_body, polar_to_car, SCALE_CONST]
    norm_num

/-- Witness of C4: the first entry of the position arrays for the initial
conditions with angles of 45 degrees. -/
theorem positions_chained_witness :
    0 < total_steps ∧
    (main Real.sin Real.cos init_conds_45).2.x_2_arr[0]?
      = some ((main Real.sin Real.cos init_conds_45).2.x_1_arr.getD 0 0
          + SCALE_CONST * (main_constants init_conds_45).l_2
            * Real.sin ((main Real.sin Real.cos init_conds_45).1.theta_2_arr.getD 0 0)) :=
  ⟨by rw [total_steps_eq]; decide,
    (positions_chained init_conds_45 0 (by rw [total_steps_eq]; decide) 0 1 1 1).2.2.2.1⟩

/-- C3: for masses 10 and 1, rods of 100 cm and initial angles of 45 degrees,
entry 0 of the angle array of `main` is the angle after one `runge_kutta_4`
call, which is smaller than the initial angle: it is not the initial angle.
The seed `main` stores in slot 0 before the loop is overwritten by the first
iteration. -/
theorem main_entry_zero_not_initial :
    (main Real.sin Real.cos init_conds_45).1.theta_1_arr[0]?
      = some (rk4_step Real.sin Real.cos (main_constants init_conds_45)
          (main_state init_conds_45)).theta_1 ∧
    (main Real.sin Real.cos init_conds_45).1.theta_1_arr.getD 0 0
      < (main_state init_conds_45).theta_1 ∧
    (main Real.sin Real.cos init_conds_45).1.theta_1_arr.getD 0 0
      ≠ (main_state init_conds_45).theta_1 := by
  have h0 : 0 < total_steps := by rw [total_steps_eq]; decide
  have e := (main_theta_entry Real.sin Real.cos (init_conds_45 : ics_t → ℝ) 0 h0).1
  rw [zero_add, Function.iterate_one] at e
  have hc : main_constants (init_conds_45 : ics_t → ℝ) = ⟨10, 1, 1, 1⟩ := by
    simp [main_constants, init_conds_45]
  have hs : main_state (init_conds_45 : ics_t → ℝ)
      = ⟨45 * 3.1415927 / 180, 45 * 3.1415927 / 180, 0, 0⟩ := by
    simp [main_state, init_conds_45, deg_to_rad, PI]
  have hsin : 1 / 3 < Real.sin (45 * 3.1415927 / 180) := by
    have h : (45 * 3.1415927 / 180 : ℝ) - (45 * 3.1415927 / 180) ^ 3 / 4
        < Real.sin (45 * 3.1415927 / 180) :=
      Real.sin_gt_sub_cube (by norm_num) (by norm_num)
    have h' : (1 : ℝ) / 3 < 45 * 3.1415927 / 180 - (45 * 3.1415927 / 180) ^ 3 / 4 := by
      norm_num
    linarith
  have hlt := rk4_step_theta_1_lt (45 * 3.1415927 / 180) hsin
  rw [← hc, ← hs] at hlt
  have g : (main Real.sin Real.cos init_conds_45).1.theta_1_arr.getD 0 0
      = (rk4_step Real.sin Real.cos (main_constants init_conds_45)
          (main_state init_conds_45)).theta_1 := by
    rw [List.getD_eq_getElem?_getD, e, Option.getD_some]
  refine ⟨e, ?_, ?_⟩
  · rw [g]
    have hs1 : (main_state (init_conds_45 : ics_t → ℝ)).theta_1 = 45 * 3.1415927 / 180 := by
      rw [hs]
    rw [hs1]
    exact hlt
  · rw [g]
    have hs1 : (main_state (init_conds_45 : ics_t → ℝ)).theta_1 = 45 * 3.1415927 / 180 := by
      rw [hs]
    rw [hs1]
    exact hlt.ne

/-- C6: `total_steps` is 6000; the simulation loop of `main` applies the
integrator 6000 times to the initial state and advances the time to 60; the
two angle arrays and the four position arrays have 6000 entries; and every
entry of them is written by its loop: started on any arrays of that length,
the loops leave the arrays `main` ends with. -/
theorem trajectory_length (init_conds : ics_t → ℝ) (a1 a2 : List ℝ) (p : pos_t ℝ)
    (ha1 : a1.length = total_steps) (ha2 : a2.length = total_steps)
    (hx1 : p.x_1_arr.length = total_steps) (hx2 : p.x_2_arr.length = total_steps)
    (hy1 : p.y_1_arr.length = total_steps) (hy2 : p.y_2_arr.length = total_steps) :
    total_steps = 6000 ∧
    (main Real.sin Real.cos init_conds).1.state
      = (rk4_step Real.sin Real.cos (main_constants init_conds))^[6000]
          (main_state init_conds) ∧
    (main Real.sin Real.cos init_conds).1.t = 60 ∧
    (main Real.sin Real.cos init_conds).1.theta_1_arr.length = 6000 ∧
    (main Real.sin Real.cos init_conds).1.theta_2_arr.length = 6000 ∧
    (main Real.sin Real.cos init_conds).2.x_1_arr.length = 6000 ∧
    (main Real.sin Real.cos init_conds).2.x_2_arr.length = 6000 ∧
    (main Real.sin Real.cos init_conds).2.y_1_arr.length = 6000 ∧
    (main Real.sin Real.cos init_conds).2.y_2_arr.length = 6000 ∧
    (sim_loop Real.sin Real.cos total_steps
        { main_sim_init init_conds with theta_1_arr := a1, theta_2_arr := a2 }).theta_1_arr
      = (main Real.sin Real.cos init_conds).1.theta_1_arr ∧
    (sim_loop Real.sin Real.cos total_steps
        { main_sim_init init_conds with theta_1_arr := a1, theta_2_arr := a2 }).theta_2_arr
      = (main Real.sin Real.cos init_conds).1.theta_2_arr ∧
    convert_loop Real.sin Real.cos total_steps (main Real.sin Real.cos init_conds).1.constants
        (main Real.sin Real.cos init_conds).1.theta_1_arr
        (main Real.sin Real.cos init_conds).1.theta_2_arr p
      = (main Real.sin Real.cos init_conds).2 := by
  obtain ⟨s1, s2, s3⟩ := main_state_final Real.sin Real.cos init_conds
  obtain ⟨t1, t2⟩ := main_theta_length Real.sin Real.cos init_conds
  obtain ⟨p1, p2, p3, p4⟩ := main_pos_length Real.sin Real.cos init_conds
  obtain ⟨l1, l2⟩ := main_sim_init_length init_conds
  have h := sim_loop_arr_ext Real.sin Real.cos total_steps
    { main_sim_init init_conds with theta_1_arr := a1, theta_2_arr := a2 }
    (main_sim_init init_conds) rfl rfl (ha1.trans l1.symm) ha1.le (ha2.trans l2.symm) ha2.le
  have hp := convert_loop_ext Real.sin Real.cos total_steps
    (main Real.sin Real.cos init_conds).1.constants
    (main Real.sin Real.cos init_conds).1.theta_1_arr
    (main Real.sin Real.cos init_conds).1.theta_2_arr p main_pos_init hx1 hx2 hy1 hy2
    (by simp [main_pos_init]) (by simp [main_pos_init]) (by simp [main_pos_init])
    (by simp [main_pos_init])
  have ht : (main Real.sin Real.cos init_conds).1.t = 60 := by
    rw [s3, total_steps_eq]
    norm_num [T_STEP]
  rw [total_steps_eq] at s1 t1 t2 p1 p2 p3 p4
  exact ⟨total_steps_eq, s1, ht, t1, t2, p1, p2, p3, p4, h.1, h.2, hp⟩

/-- Witness of C6: the initial conditions with angles of 45 degrees, and
arrays filled with ones before the loops. -/
theorem trajectory_length_witness :
    (List.replicate total_steps (1 : ℝ)).length = total_steps ∧
    (main Real.sin Real.cos init_conds_45).2.x_1_arr.length = 6000 ∧
    convert_loop Real.sin Real.cos total_steps (main Real.sin Real.cos init_conds_45).1.constants
        (main Real.sin Real.cos init_conds_45).1.theta_1_arr
        (main Real.sin Real.cos init_conds_45).1.theta_2_arr
        ⟨List.replicate total_steps 1, List.replicate total_steps 1,
          List.replicate total_steps 1, List.replicate total_steps 1⟩
      = (main Real.sin Real.cos init_conds_45).2 :=
  have h := trajectory_length init_conds_45 (List.replicate total_steps 1)
    (List.replicate total_steps 1)
    ⟨List.replicate total_steps 1, List.replicate total_steps 1,
      List.replicate total_steps 1, List.replicate total_steps 1⟩
    (List.length_replicate _ _) (List.length_replicate _ _) (List.length_replicate _ _)
    (List.length_replicate _ _) (List.length_replicate _ _) (List.length_replicate _ _)
  ⟨List.length_replicate _ _, h.2.2.2.2.2.1, h.2.2.2.2.2.2.2.2.2.2.2⟩

end Trajectory

end DoublePendulum
